import Mathlib

/-!
# Verification of the disk-scheduling simulator core

A shallow embedding of the scheduling core of the OS-Disk-Scheduling-Simulator
repository: the shared `AlgorithmBase` utilities, the six scheduling policies
(`FCFS`, `SSTF`, `SCAN`, `C-SCAN`, `LOOK`, `C-LOOK`), and the `StateManager`
step materializer and replay controls.  Track numbers are JS numbers holding
integers, embedded as `ℤ`.  Where the repository holds two revisions of the
same function, both are embedded and the suffix `1` / `2` distinguishes the
earlier and the later revision.

JS `Array.prototype.sort` with comparator `(a,b) => a-b` (resp. `b-a`) sorts
ascending (resp. descending); on integer entries the result is the unique
sorted permutation, embedded via `List.insertionSort`.
-/

namespace DiskSim

/-- The direction hint: `'low'` or `'high'` in the source. -/
inductive Direction where
  | low : Direction
  | high : Direction
deriving DecidableEq, Repr

/-- The data held by an `AlgorithmBase` instance after construction:
initial head position, maximum track, the cloned request queue and the
direction hint. -/
structure AlgCfg where
  initialPosition : ℤ
  maxTrack : ℤ
  requests : List ℤ
  direction : Direction
deriving DecidableEq, Repr

/-- The `AlgorithmBase` constructor: `direction` has default value `'low'`
(`constructor(initialPosition, maxTrack, requests, direction = 'low')`).
`none` stands for an absent argument. -/
def mkAlgCfg (initialPosition maxTrack : ℤ) (requests : List ℤ)
    (direction : Option Direction) : AlgCfg :=
  { initialPosition := initialPosition
    maxTrack := maxTrack
    requests := requests
    direction := direction.getD Direction.low }

/-- `AlgorithmBase.validateInput`: throws when the queue is empty, the initial
position is out of `[0, maxTrack]`, or some request is out of that range.
Note it does not check any lower bound on `maxTrack` itself. -/
def validateInput (c : AlgCfg) : Except String Unit :=
  if c.requests = [] then
    Except.error "Request queue cannot be empty"
  else if c.initialPosition < 0 ∨ c.maxTrack < c.initialPosition then
    Except.error "Initial position must be between 0 and maxTrack"
  else if c.requests.any (fun r => r < 0 ∨ c.maxTrack < r) then
    Except.error "Request position is out of range"
  else
    Except.ok ()

/-- Ascending sort, the embedding of `sort((a, b) => a - b)`. -/
def sortAsc (l : List ℤ) : List ℤ :=
  List.insertionSort (fun a b => a ≤ b) l

/-- Descending sort, the embedding of `sort((a, b) => b - a)`. -/
def sortDesc (l : List ℤ) : List ℤ :=
  List.insertionSort (fun a b => b ≤ a) l

/-- `AlgorithmBase.getRequestsLessThan(currentPos, sorted = true)`. -/
def getRequestsLessThan (c : AlgCfg) (currentPos : ℤ) (sorted : Bool := true) :
    List ℤ :=
  let result := c.requests.filter (fun r => r < currentPos)
  if sorted then sortDesc result else result

/-- `AlgorithmBase.getRequestsGreaterOrEqual(currentPos, sorted = true)`. -/
def getRequestsGreaterOrEqual (c : AlgCfg) (currentPos : ℤ)
    (sorted : Bool := true) : List ℤ :=
  let result := c.requests.filter (fun r => currentPos ≤ r)
  if sorted then sortAsc result else result

/-- `AlgorithmBase.getRequestsGreaterThan(currentPos, sorted = true)`. -/
def getRequestsGreaterThan (c : AlgCfg) (currentPos : ℤ)
    (sorted : Bool := true) : List ℤ :=
  let result := c.requests.filter (fun r => currentPos < r)
  if sorted then sortAsc result else result

/-- `AlgorithmBase.getRequestsLessOrEqual(currentPos, sorted = true)`. -/
def getRequestsLessOrEqual (c : AlgCfg) (currentPos : ℤ)
    (sorted : Bool := true) : List ℤ :=
  let result := c.requests.filter (fun r => r ≤ currentPos)
  if sorted then sortDesc result else result

/-- The body of the `reduce` callback in `AlgorithmBase.findClosestRequest`:
`currentDist < closestDist ? current : closest` (a tie keeps the earlier
accumulator). -/
def closerTo (currentPos closest current : ℤ) : ℤ :=
  if |current - currentPos| < |closest - currentPos| then current else closest

/-- `AlgorithmBase.findClosestRequest(currentPos, available)`: `null` on an
empty list, otherwise `reduce` over the list with its head as the initial
accumulator. -/
def findClosestRequest (currentPos : ℤ) (available : List ℤ) : Option ℤ :=
  match available with
  | [] => none
  | x :: xs => some (xs.foldl (fun closest current => closerTo currentPos closest current) x)

/-- `AlgorithmBase.calculateTotalMovement(sequence)`: the sum of the absolute
differences of consecutive entries. -/
def calculateTotalMovement (sequence : List ℤ) : ℤ :=
  ((sequence.zip (sequence.drop 1)).foldl
    (fun total p => total + |p.2 - p.1|) 0)

/-- `FCFS.execute`: the initial position followed by the requests in their
original order. -/
def fcfsExec (c : AlgCfg) : List ℤ :=
  c.initialPosition :: c.requests

/-- The loop of `SSTF.execute`: repeatedly pick the request closest to the
current position, append it, and remove it (`splice(indexOf(closest), 1)`,
i.e. first-occurrence erasure) from the remaining list.  The `while` loop
runs once per element of `remaining`; `fuel` is its exact iteration budget
(`sstfExec` passes the length of the queue, which never runs out since every
iteration erases one element). -/
def sstfGo (fuel : ℕ) (currentPos : ℤ) (remaining : List ℤ) : List ℤ :=
  match fuel, remaining with
  | 0, _ => []
  | _, [] => []
  | fuel + 1, x :: xs =>
    let closest := xs.foldl (fun closest current => closerTo currentPos closest current) x
    closest :: sstfGo fuel closest ((x :: xs).erase closest)

/-- `SSTF.execute`. -/
def sstfExec (c : AlgCfg) : List ℤ :=
  c.initialPosition :: sstfGo c.requests.length c.initialPosition c.requests

/-- `LOOK.execute` (strict partition around the initial position; a request
equal to the initial position lands in neither half). -/
def lookExec (c : AlgCfg) : List ℤ :=
  let leftRequests := getRequestsLessThan c c.initialPosition true
  let rightRequests := getRequestsGreaterThan c c.initialPosition true
  if c.direction = Direction.high then
    c.initialPosition :: (rightRequests ++ leftRequests)
  else
    c.initialPosition :: (leftRequests ++ rightRequests)

/-- `CLOOK.execute` (the direction-agnostic revision): right requests in
ascending order, then left requests in descending order, with a special
branch when the current position is a request and only left requests exist. -/
def clookExec (c : AlgCfg) : List ℤ :=
  let currentPos := c.initialPosition
  let leftRequests := getRequestsLessThan c currentPos true
  let rightRequests := getRequestsGreaterThan c currentPos true
  let currentIsRequest := currentPos ∈ c.requests
  if currentIsRequest ∧ rightRequests = [] ∧ leftRequests ≠ [] then
    currentPos :: leftRequests
  else
    currentPos :: (rightRequests ++ leftRequests)

/-- The last element of a JS array access `sequence[sequence.length - 1]`,
for a list known to be nonempty in the source (default `0` is never hit
there). -/
def jsLast (l : List ℤ) : ℤ :=
  l.getLastD 0

/-- `SCAN.execute` (the elevator revision): partitions with `<=` / `>=`,
removes the initial position from the head of each half if present, then
sweeps in the hinted direction, pushing the boundary (`maxTrack` or `0`)
before reversing when requests remain on the far side. -/
def scanExec (c : AlgCfg) : List ℤ :=
  let h := c.initialPosition
  let leftRequests0 := getRequestsLessOrEqual c h true
  let rightRequests0 := getRequestsGreaterOrEqual c h true
  let leftRequests := if leftRequests0.head? = some h then leftRequests0.tail else leftRequests0
  let rightRequests := if rightRequests0.head? = some h then rightRequests0.tail else rightRequests0
  if c.direction = Direction.high then
    let seq1 := h :: rightRequests
    let seq2 := if leftRequests ≠ [] ∧ jsLast seq1 ≠ c.maxTrack then seq1 ++ [c.maxTrack] else seq1
    seq2 ++ leftRequests
  else
    let seq1 := h :: leftRequests
    let seq2 := if rightRequests ≠ [] ∧ jsLast seq1 ≠ 0 then seq1 ++ [0] else seq1
    seq2 ++ rightRequests

/-- `CSCAN.execute` (the direction-agnostic revision, cscan.js lines 16-39):
always sweeps toward high; requests at or above the head ascending (the head
itself filtered out), then, when requests exist below, the literal track `0`
followed by the below requests in the order `getRequestsLessThan` returns
them, which is descending. -/
def cscanExec (c : AlgCfg) : List ℤ :=
  let currentPos := c.initialPosition
  let leftRequests := getRequestsLessThan c currentPos true
  let rightRequests := getRequestsGreaterOrEqual c currentPos true
  let rightFiltered := rightRequests.filter (fun r => r ≠ currentPos)
  if leftRequests ≠ [] then
    currentPos :: (rightFiltered ++ 0 :: leftRequests)
  else
    currentPos :: rightFiltered

/-- `CSCAN.execute` (the direction-aware revision): honours the direction
hint, removes the initial position from the head of the first half, touches
the boundary in the travel direction (when not already there), jumps to the
opposite boundary and services the remaining requests in the same logical
direction. -/
def cscan2Exec (c : AlgCfg) : List ℤ :=
  let h := c.initialPosition
  if c.direction = Direction.high then
    let rightRequests0 := getRequestsGreaterOrEqual c h true
    let leftRequests := (getRequestsLessThan c h true).reverse
    let rightRequests := if rightRequests0.head? = some h then rightRequests0.tail else rightRequests0
    let seq1 := h :: rightRequests
    if leftRequests ≠ [] then
      let seq2 := if jsLast seq1 ≠ c.maxTrack then seq1 ++ [c.maxTrack] else seq1
      seq2 ++ 0 :: leftRequests
    else
      seq1
  else
    let leftRequests0 := getRequestsLessOrEqual c h true
    let rightRequests := (getRequestsGreaterThan c h true).reverse
    let leftRequests := if leftRequests0.head? = some h then leftRequests0.tail else leftRequests0
    let seq1 := h :: leftRequests
    if rightRequests ≠ [] then
      let seq2 := if jsLast seq1 ≠ 0 then seq1 ++ [0] else seq1
      seq2 ++ c.maxTrack :: rightRequests
    else
      seq1

/-! ## Step materializer and state manager -/

/-- A step record (`state-manager.js`).  The cosmetic narration string
`currentAction` carries no load-bearing data and is omitted. -/
structure StepRecord where
  step : ℕ
  headPosition : ℤ
  nextTarget : Option ℤ
  totalHeadMovement : ℤ
  seekDistance : ℤ
  pendingQueue : List ℤ
  servicedQueue : List ℤ
deriving DecidableEq, Repr

/-- `StateManager.createInitialStep` as invoked right after
`resetSimulation`, where `pendingRequests` is a copy of `requestQueue`. -/
def createInitialStep (initialHeadPosition : ℤ) (pending : List ℤ) : StepRecord :=
  { step := 0
    headPosition := initialHeadPosition
    nextTarget := pending.head?
    totalHeadMovement := 0
    seekDistance := 0
    pendingQueue := pending
    servicedQueue := [] }

/-- One loop iteration body shared by both revisions of
`convertSequenceToSteps`: seek distance, cumulative movement and the
pending/serviced partition update at position `cur`. -/
def stepCore (prevPos cur : ℤ) (total : ℤ) (pending serviced : List ℤ) :
    ℤ × List ℤ × List ℤ :=
  let seekDistance := |cur - prevPos|
  let total' := total + seekDistance
  if cur ∈ pending then
    (total', pending.filter (fun r => r ≠ cur), serviced ++ [cur])
  else
    (total', pending, serviced)

/-- Loop of the earlier revision of `StateManager.convertSequenceToSteps`
(state-manager.js lines 123-173): `nextTarget` is `sequence[i+1]` when it
exists, else the first still-pending request, and `null` once nothing is
pending. -/
def convertGo1 (prevPos : ℤ) (rest : List ℤ) (i : ℕ) (total : ℤ)
    (pending serviced : List ℤ) : List StepRecord :=
  match rest with
  | [] => []
  | cur :: rest' =>
    let seekDistance := |cur - prevPos|
    let r := stepCore prevPos cur total pending serviced
    let nextTarget : Option ℤ :=
      if r.2.1 ≠ [] then
        match rest' with
        | n :: _ => some n
        | [] => r.2.1.head?
      else none
    { step := i
      headPosition := cur
      nextTarget := nextTarget
      totalHeadMovement := r.1
      seekDistance := seekDistance
      pendingQueue := r.2.1
      servicedQueue := r.2.2 } :: convertGo1 cur rest' (i + 1) r.1 r.2.1 r.2.2

/-- The earlier revision of `StateManager.convertSequenceToSteps`: the
initial record (`nextTarget` = first pending request) followed by one record
per subsequent sequence entry. -/
def convertSequenceToSteps1 (initialHeadPosition : ℤ) (requestQueue : List ℤ)
    (sequence : List ℤ) : List StepRecord :=
  let rec0 : StepRecord :=
    { step := 0
      headPosition := initialHeadPosition
      nextTarget := requestQueue.head?
      totalHeadMovement := 0
      seekDistance := 0
      pendingQueue := requestQueue
      servicedQueue := [] }
  match sequence with
  | [] => [rec0]
  | s0 :: rest => rec0 :: convertGo1 s0 rest 1 0 requestQueue []

/-- Loop of the later revision of `StateManager.convertSequenceToSteps`
(state-manager.js lines 540-589): `nextTarget` is `sequence[i+1]` when it
exists and `null` at the last entry. -/
def convertGo2 (prevPos : ℤ) (rest : List ℤ) (i : ℕ) (total : ℤ)
    (pending serviced : List ℤ) : List StepRecord :=
  match rest with
  | [] => []
  | cur :: rest' =>
    let seekDistance := |cur - prevPos|
    let r := stepCore prevPos cur total pending serviced
    { step := i
      headPosition := cur
      nextTarget := rest'.head?
      totalHeadMovement := r.1
      seekDistance := seekDistance
      pendingQueue := r.2.1
      servicedQueue := r.2.2 } :: convertGo2 cur rest' (i + 1) r.1 r.2.1 r.2.2

/-- The later revision of `StateManager.convertSequenceToSteps`: the initial
record carries `nextTarget = null` (it is patched afterwards by
`generateSequence`), and each later record points at the next sequence
entry. -/
def convertSequenceToSteps2 (initialHeadPosition : ℤ) (requestQueue : List ℤ)
    (sequence : List ℤ) : List StepRecord :=
  let rec0 : StepRecord :=
    { step := 0
      headPosition := initialHeadPosition
      nextTarget := none
      totalHeadMovement := 0
      seekDistance := 0
      pendingQueue := requestQueue
      servicedQueue := [] }
  match sequence with
  | [] => [rec0]
  | s0 :: rest => rec0 :: convertGo2 s0 rest 1 0 requestQueue []

/-- The earlier revision of `StateManager.generateSequence`: construct the
algorithm (whose constructor runs `validateInput` and throws), execute it and
materialize the steps; on a thrown error the `catch` block installs the
single initial record.  The policy itself is a parameter `exec`, so that
independence from it can be stated. -/
def generateSequence1 (initialHeadPosition maxTrackNumber : ℤ)
    (requestQueue : List ℤ) (direction : Direction)
    (exec : AlgCfg → List ℤ) : List StepRecord :=
  match validateInput (AlgCfg.mk initialHeadPosition maxTrackNumber requestQueue direction) with
  | Except.error _ => [createInitialStep initialHeadPosition requestQueue]
  | Except.ok _ =>
    let steps := convertSequenceToSteps1 initialHeadPosition requestQueue
      (exec (AlgCfg.mk initialHeadPosition maxTrackNumber requestQueue direction))
    if steps = [] then [createInitialStep initialHeadPosition requestQueue] else steps

/-- The earlier revision of `StateManager.validateParameters`: empty queue,
initial position out of `[0, maxTrack]`, or `maxTrack < 10` produce error
strings; the result is valid when no error accrued. -/
def validateParameters1 (initialHeadPosition maxTrackNumber : ℤ)
    (requestQueue : List ℤ) : List String :=
  (if requestQueue = [] then ["Request queue cannot be empty"] else []) ++
  (if initialHeadPosition < 0 ∨ maxTrackNumber < initialHeadPosition then
    ["Initial head position must be between 0 and maxTrack"] else []) ++
  (if maxTrackNumber < 10 then ["Max track number must be at least 10"] else [])

/-- `Controller.generateSimulation` (controller.js lines 159-202), the
run-creation entry point: validate the parameters first and stop with no
timeline when invalid; only then create the algorithm and generate the
steps. -/
def generateSimulation (initialHeadPosition maxTrackNumber : ℤ)
    (requestQueue : List ℤ) (direction : Direction)
    (exec : AlgCfg → List ℤ) : Option (List StepRecord) :=
  if validateParameters1 initialHeadPosition maxTrackNumber requestQueue = [] then
    some (generateSequence1 initialHeadPosition maxTrackNumber requestQueue direction exec)
  else
    none

/-! ## Request-queue parsing

Raw textual input is embedded at the character level (`List Char`), since
the claims quantify over arbitrary input strings and the embedding must
evaluate on concrete ones. -/

/-- `String.prototype.split(',')`: cut the character sequence at every
comma; an empty input yields one empty token, like in JS. -/
def splitOnComma : List Char → List (List Char)
  | [] => [[]]
  | c :: rest =>
    if c = ',' then [] :: splitOnComma rest
    else
      match splitOnComma rest with
      | t :: ts => (c :: t) :: ts
      | [] => [[c]]

/-- Whitespace as `String.prototype.trim` sees it (the ASCII cases). -/
def isWsChar (c : Char) : Bool :=
  c = ' ' ∨ c = '\t' ∨ c = '\n' ∨ c = '\r'

/-- `str.trim()`: strip leading and trailing whitespace. -/
def trimChars (cs : List Char) : List Char :=
  ((cs.dropWhile isWsChar).reverse.dropWhile isWsChar).reverse

/-- `parseInt(str)` on a token: skip whitespace, optional sign, then a
leading run of decimal digits (or hexadecimal digits after a `0x`/`0X`
prefix, which bare `parseInt` auto-detects); `NaN` (here `none`) when no
digit is readable. -/
def parseIntJS (token : List Char) : Option ℤ :=
  let cs := trimChars token
  let signed : ℤ × List Char :=
    match cs with
    | '-' :: rest => (-1, rest)
    | '+' :: rest => (1, rest)
    | _ => (1, cs)
  let hexed : ℤ × List Char :=
    match signed.2 with
    | '0' :: 'x' :: rest => (16, rest)
    | '0' :: 'X' :: rest => (16, rest)
    | _ => (10, signed.2)
  let isDig : Char → Bool := fun ch =>
    if hexed.1 = 16 then ch.isDigit ∨ ('a' ≤ ch ∧ ch ≤ 'f') ∨ ('A' ≤ ch ∧ ch ≤ 'F')
    else ch.isDigit
  let digitVal : Char → ℤ := fun ch =>
    if ch.isDigit then (ch.toNat : ℤ) - ('0'.toNat : ℤ)
    else if 'a' ≤ ch ∧ ch ≤ 'f' then (ch.toNat : ℤ) - ('a'.toNat : ℤ) + 10
    else (ch.toNat : ℤ) - ('A'.toNat : ℤ) + 10
  let digits := hexed.2.takeWhile isDig
  match digits with
  | [] => none
  | _ => some (signed.1 * digits.foldl (fun acc ch => acc * hexed.1 + digitVal ch) 0)

/-- The earlier revision of `StateManager.parseRequestQueue` (lines 53-65):
split on commas, `parseInt` each trimmed token, drop `NaN` and out-of-range
values.  No deduplication. -/
def parseRequestQueue1 (maxTrackNumber : ℤ) (queueString : List Char) : List ℤ :=
  ((splitOnComma queueString).filterMap parseIntJS).filter
    (fun num => 0 ≤ num ∧ num ≤ maxTrackNumber)

/-- `new Set(requests)` spread back into an array: keeps the first
occurrence of every value, in encounter order. -/
def dedupFirst (l : List ℤ) : List ℤ :=
  go [] l
where
  go (seen : List ℤ) : List ℤ → List ℤ
    | [] => []
    | x :: xs => if x ∈ seen then go seen xs else x :: go (x :: seen) xs

/-- The later revision of `StateManager.parseRequestQueue` (lines 450-466):
as the earlier one, followed by `[...new Set(requests)]` deduplication. -/
def parseRequestQueue2 (maxTrackNumber : ℤ) (queueString : List Char) : List ℤ :=
  dedupFirst (parseRequestQueue1 maxTrackNumber queueString)

/-! ## Replay state and controls -/

/-- The mutable replay state of `StateManager` (earlier revision): the
precomputed timeline, the current index, and the statistics mirror fields
refreshed by `updateStatistics`.  `averageSeekTime` is a JS float quotient,
embedded as `ℚ`. -/
structure SimState where
  initialHeadPosition : ℤ
  requestQueue : List ℤ
  allSteps : List StepRecord
  currentStepIndex : ℤ
  totalHeadMovement : ℤ
  seeksCount : ℕ
  averageSeekTime : ℚ
  currentHeadPosition : ℤ
  pendingRequests : List ℤ
  servicedRequests : List ℤ
  nextTarget : Option ℤ
deriving DecidableEq, Repr

/-- JS array read `l[i]` with an integer index: `undefined` (`none`) when
out of bounds, including negative indices. -/
def jsIndex {α : Type} (l : List α) (i : ℤ) : Option α :=
  if i < 0 then none else l.get? i.toNat

/-- `StateManager.getCurrentStep`: the fallback initial record when the
timeline is empty, else `allSteps[min(currentStepIndex, length - 1)]`.
`none` marks the (unreachable) out-of-bounds read. -/
def getCurrentStep (s : SimState) : Option StepRecord :=
  if s.allSteps = [] then
    some (createInitialStep s.initialHeadPosition s.pendingRequests)
  else
    jsIndex s.allSteps (min s.currentStepIndex ((s.allSteps.length : ℤ) - 1))

/-- `StateManager.updateStatistics` (earlier revision, lines 253-269):
refresh every statistics field from the current record; `seeksCount` is the
record's step index and `averageSeekTime` its movement divided by it (0 at
step 0). -/
def updateStatistics (s : SimState) : SimState :=
  match getCurrentStep s with
  | none => s
  | some currentStep =>
    { s with
      currentHeadPosition := currentStep.headPosition
      totalHeadMovement := currentStep.totalHeadMovement
      pendingRequests := currentStep.pendingQueue
      servicedRequests := currentStep.servicedQueue
      nextTarget := currentStep.nextTarget
      seeksCount := if 0 < currentStep.step then currentStep.step else 0
      averageSeekTime :=
        if 0 < currentStep.step then
          (currentStep.totalHeadMovement : ℚ) / (currentStep.step : ℚ)
        else 0 }

/-- `StateManager.jumpToStep(stepIndex)`:
`Math.max(0, Math.min(stepIndex, allSteps.length - 1))` then refresh. -/
def jumpToStep (stepIndex : ℤ) (s : SimState) : SimState :=
  updateStatistics
    { s with currentStepIndex := max 0 (min stepIndex ((s.allSteps.length : ℤ) - 1)) }

/-- `StateManager.nextStep`: advance and refresh when not at the end. -/
def nextStepFn (s : SimState) : SimState :=
  if s.currentStepIndex < (s.allSteps.length : ℤ) - 1 then
    updateStatistics { s with currentStepIndex := s.currentStepIndex + 1 }
  else s

/-- `StateManager.previousStep`: step back and refresh when not at the
start. -/
def previousStepFn (s : SimState) : SimState :=
  if 0 < s.currentStepIndex then
    updateStatistics { s with currentStepIndex := s.currentStepIndex - 1 }
  else s

/-- One replay control invocation. -/
inductive ReplayAct where
  | jump (stepIndex : ℤ) : ReplayAct
  | next : ReplayAct
  | prev : ReplayAct

/-- One replay control applied to the state. -/
def replayStep (a : ReplayAct) (s : SimState) : SimState :=
  match a with
  | ReplayAct.jump i => jumpToStep i s
  | ReplayAct.next => nextStepFn s
  | ReplayAct.prev => previousStepFn s

/-- A sequence of replay control invocations, applied in order. -/
def applyActs (acts : List ReplayAct) (s : SimState) : SimState :=
  acts.foldl (fun s a => replayStep a s) s

/-- A concrete two-record replay state (head 53, one request 98), used by
witnesses. -/
def sampleState : SimState :=
  { initialHeadPosition := 53
    requestQueue := [98]
    allSteps := convertSequenceToSteps2 53 [98] [53, 98]
    currentStepIndex := 0
    totalHeadMovement := 0
    seeksCount := 0
    averageSeekTime := 0
    currentHeadPosition := 53
    pendingRequests := [98]
    servicedRequests := []
    nextTarget := none }

end DiskSim

section ScratchTests

open DiskSim

example : fcfsExec (mkAlgCfg 53 199 [98, 183, 37, 122, 14, 124, 65, 67] none) =
    [53, 98, 183, 37, 122, 14, 124, 65, 67] := by decide

example : calculateTotalMovement [53, 98, 183, 37, 122, 14, 124, 65, 67] = 640 := by decide

example : sstfExec (mkAlgCfg 53 199 [98, 183, 37, 122, 14, 124, 65, 67] none) =
    [53, 65, 67, 37, 14, 98, 122, 124, 183] := by decide

example : cscanExec (mkAlgCfg 53 199 [98, 183, 37, 122, 14, 124, 65, 67] none) =
    [53, 65, 67, 98, 122, 124, 183, 0, 37, 14] := by decide

example : cscan2Exec (mkAlgCfg 53 199 [98, 183, 37, 122, 14, 124, 65, 67] (some Direction.high)) =
    [53, 65, 67, 98, 122, 124, 183, 199, 0, 14, 37] := by decide

example : scanExec (mkAlgCfg 53 199 [98, 183, 37, 122, 14, 124, 65, 67] (some Direction.high)) =
    [53, 65, 67, 98, 122, 124, 183, 199, 37, 14] := by decide

example : lookExec (mkAlgCfg 53 199 [98, 183, 37, 122, 14, 124, 65, 67] none) =
    [53, 37, 14, 65, 67, 98, 122, 124, 183] := by decide

example : cscanExec (mkAlgCfg 53 199 [37] none) = [53, 0, 37] := by decide

end ScratchTests

namespace DiskSim

/-! ## Helper lemmas -/

theorem sortAsc_perm (l : List ℤ) : List.Perm (sortAsc l) l :=
  List.perm_insertionSort _ l

theorem sortDesc_perm (l : List ℤ) : List.Perm (sortDesc l) l :=
  List.perm_insertionSort _ l

theorem sortAsc_sorted (l : List ℤ) : (sortAsc l).Sorted (fun a b => a ≤ b) := by
  exact List.sorted_insertionSort _ l

theorem sortDesc_sorted (l : List ℤ) : (sortDesc l).Sorted (fun a b => b ≤ a) := by
  exact List.sorted_insertionSort _ l

theorem sortAsc_eq_nil_iff {l : List ℤ} : sortAsc l = [] ↔ l = [] := by
  constructor
  · intro h
    have := (sortAsc_perm l).length_eq
    rw [h] at this
    exact List.length_eq_zero.mp this.symm
  · intro h; subst h; rfl

theorem sortDesc_eq_nil_iff {l : List ℤ} : sortDesc l = [] ↔ l = [] := by
  constructor
  · intro h
    have := (sortDesc_perm l).length_eq
    rw [h] at this
    exact List.length_eq_zero.mp this.symm
  · intro h; subst h; rfl

/-- The `reduce` loop of `findClosestRequest` computes the first minimizer of
the distance to `pos` in `acc :: xs`: every element before it is strictly
farther, every element after it no closer. -/
theorem foldl_closerTo_split (pos : ℤ) :
    ∀ (xs : List ℤ) (acc : ℤ),
    ∃ l₁ l₂, acc :: xs = l₁ ++ (xs.foldl (fun c cur => closerTo pos c cur) acc) :: l₂ ∧
      (∀ x ∈ l₁, |xs.foldl (fun c cur => closerTo pos c cur) acc - pos| < |x - pos|) ∧
      (∀ x ∈ l₂, |xs.foldl (fun c cur => closerTo pos c cur) acc - pos| ≤ |x - pos|) := by
  intro xs
  induction xs with
  | nil => exact fun acc => ⟨[], [], rfl, by simp, by simp⟩
  | cons y ys ih =>
    intro acc
    rw [List.foldl_cons]
    obtain ⟨l₁', l₂', heq, hstrict, hle⟩ := ih (closerTo pos acc y)
    set r := ys.foldl (fun c cur => closerTo pos c cur) (closerTo pos acc y) with hrdef
    by_cases hlt : |y - pos| < |acc - pos|
    · have hacc' : closerTo pos acc y = y := if_pos hlt
      rw [hacc'] at heq
      refine ⟨acc :: l₁', l₂', by rw [List.cons_append, ← heq], ?_, hle⟩
      intro x hx
      rcases List.mem_cons.mp hx with hx | hx
      · subst hx
        have hry : |r - pos| ≤ |y - pos| := by
          cases l₁' with
          | nil =>
            have hy : y = r := by
              simpa using congrArg (fun l => l.head?) heq
            rw [← hy]
          | cons a t =>
            have ha : a = y := by
              have := congrArg (fun l => l.head?) heq
              simpa using this.symm
            exact le_of_lt (ha ▸ hstrict a (List.mem_cons_self a t))
        exact lt_of_le_of_lt hry hlt
      · exact hstrict x hx
    · have hacc' : closerTo pos acc y = acc := if_neg hlt
      rw [hacc'] at heq
      have hylower : |acc - pos| ≤ |y - pos| := le_of_not_lt hlt
      cases l₁' with
      | nil =>
        simp only [List.nil_append, List.cons.injEq] at heq
        refine ⟨[], y :: ys, by simp [← heq.1], by simp, ?_⟩
        intro x hx
        rcases List.mem_cons.mp hx with hx | hx
        · subst hx
          exact le_trans (le_of_eq (by rw [← heq.1])) hylower
        · exact hle x (heq.2 ▸ hx)
      | cons a t =>
        simp only [List.cons_append, List.cons.injEq] at heq
        refine ⟨acc :: y :: t, l₂', by simp [heq.2], ?_, hle⟩
        have haccstrict : |r - pos| < |acc - pos| :=
          heq.1 ▸ hstrict a (List.mem_cons_self a t)
        intro x hx
        rcases List.mem_cons.mp hx with hx | hx
        · subst hx; exact haccstrict
        · rcases List.mem_cons.mp hx with hx | hx
          · subst hx; exact lt_of_lt_of_le haccstrict hylower
          · exact hstrict x (List.mem_cons_of_mem a hx)

/-- The `reduce` loop of `findClosestRequest` picks an element of
`acc :: xs`. -/
theorem foldl_closerTo_mem (pos : ℤ) (xs : List ℤ) (acc : ℤ) :
    xs.foldl (fun c cur => closerTo pos c cur) acc ∈ acc :: xs := by
  obtain ⟨l₁, l₂, heq, _, _⟩ := foldl_closerTo_split pos xs acc
  rw [heq]
  exact List.mem_append.mpr (Or.inr (List.mem_cons_self _ _))

/-- The SSTF loop visits a permutation of its remaining set whenever it has
enough fuel (one unit per pending request). -/
theorem sstfGo_perm :
    ∀ (fuel : ℕ) (rem : List ℤ) (pos : ℤ), rem.length ≤ fuel →
      List.Perm (sstfGo fuel pos rem) rem := by
  intro fuel
  induction fuel with
  | zero =>
    intro rem pos hlen
    rw [Nat.le_zero, List.length_eq_zero] at hlen
    subst hlen
    exact List.Perm.refl _
  | succ fuel ih =>
    intro rem pos hlen
    cases rem with
    | nil => exact List.Perm.refl _
    | cons x xs =>
      rw [sstfGo]
      have hc : xs.foldl (fun c cur => closerTo pos c cur) x ∈ x :: xs :=
        foldl_closerTo_mem pos xs x
      have hlen' : ((x :: xs).erase
          (xs.foldl (fun c cur => closerTo pos c cur) x)).length ≤ fuel := by
        rw [List.length_erase_of_mem hc]
        simpa using Nat.le_of_succ_le_succ hlen
      exact List.Perm.trans
        (List.Perm.cons _ (ih _ _ hlen'))
        (List.perm_cons_erase hc).symm
/-- The strict below/above halves together are the requests other than the
pivot, as a multiset. -/
theorem filter_lt_append_gt_perm (p : ℤ) :
    ∀ (R : List ℤ),
      List.Perm (R.filter (fun r => r < p) ++ R.filter (fun r => p < r))
        (R.filter (fun r => r ≠ p)) := by
  intro R
  induction R with
  | nil => exact List.Perm.refl _
  | cons x xs ih =>
    simp only [List.filter_cons]
    rcases lt_trichotomy x p with h | h | h
    · rw [if_pos (by simp only [decide_eq_true_eq]; omega),
        if_neg (by simp only [decide_eq_true_eq]; omega),
        if_pos (by simp only [decide_eq_true_eq]; omega)]
      exact List.Perm.cons x ih
    · subst h
      rw [if_neg (by simp only [decide_eq_true_eq]; omega),
        if_neg (by simp only [decide_eq_true_eq]; omega),
        if_neg (by simp only [decide_eq_true_eq]; omega)]
      exact ih
    · rw [if_neg (by simp only [decide_eq_true_eq]; omega),
        if_pos (by simp only [decide_eq_true_eq]; omega),
        if_pos (by simp only [decide_eq_true_eq]; omega)]
      exact List.Perm.trans List.perm_middle (List.Perm.cons x ih)

/-- Sorting descending then reversing is sorting ascending. -/
theorem reverse_sortDesc (l : List ℤ) : (sortDesc l).reverse = sortAsc l := by
  apply List.eq_of_perm_of_sorted (r := fun a b => a ≤ b)
  · exact ((sortDesc l).reverse_perm.trans (sortDesc_perm l)).trans
      (sortAsc_perm l).symm
  · rw [List.Sorted, List.pairwise_reverse]
    exact sortDesc_sorted l
  · exact sortAsc_sorted l

/-- Erasing the pivot from the at-or-above filter of a duplicate-free list
leaves the strictly-above filter, as a multiset. -/
theorem erase_filter_ge_perm (p : ℤ) (R : List ℤ) (hnd : R.Nodup) :
    List.Perm ((R.filter (fun r => p ≤ r)).erase p) (R.filter (fun r => p < r)) := by
  have hnd1 : ((R.filter (fun r => p ≤ r)).erase p).Nodup :=
    (hnd.filter _).erase p
  have hnd2 : (R.filter (fun r => p < r)).Nodup := hnd.filter _
  rw [List.perm_ext_iff_of_nodup hnd1 hnd2]
  intro a
  rw [(hnd.filter _).mem_erase_iff]
  simp only [List.mem_filter, decide_eq_true_eq]
  constructor
  · rintro ⟨hne, ha, hle⟩
    exact ⟨ha, by omega⟩
  · rintro ⟨ha, hlt⟩
    exact ⟨by omega, ha, by omega⟩

/-- Erasing the pivot from the at-or-below filter of a duplicate-free list
leaves the strictly-below filter, as a multiset. -/
theorem erase_filter_le_perm (p : ℤ) (R : List ℤ) (hnd : R.Nodup) :
    List.Perm ((R.filter (fun r => r ≤ p)).erase p) (R.filter (fun r => r < p)) := by
  have hnd1 : ((R.filter (fun r => r ≤ p)).erase p).Nodup :=
    (hnd.filter _).erase p
  have hnd2 : (R.filter (fun r => r < p)).Nodup := hnd.filter _
  rw [List.perm_ext_iff_of_nodup hnd1 hnd2]
  intro a
  rw [(hnd.filter _).mem_erase_iff]
  simp only [List.mem_filter, decide_eq_true_eq]
  constructor
  · rintro ⟨hne, ha, hle⟩
    exact ⟨ha, by omega⟩
  · rintro ⟨ha, hlt⟩
    exact ⟨by omega, ha, by omega⟩

/-- The head-shift (`if (arr[0] === pos) arr.shift()`) applied to the
ascending at-or-above half of a duplicate-free list yields exactly the
ascending strictly-above half. -/
theorem shiftHead_sortAsc_ge (p : ℤ) (R : List ℤ) (hnd : R.Nodup) :
    (if (sortAsc (R.filter (fun r => p ≤ r))).head? = some p
     then (sortAsc (R.filter (fun r => p ≤ r))).tail
     else sortAsc (R.filter (fun r => p ≤ r))) =
    sortAsc (R.filter (fun r => p < r)) := by
  by_cases hp : p ∈ R
  · have hmem : p ∈ sortAsc (R.filter (fun r => p ≤ r)) :=
      (sortAsc_perm _).mem_iff.mpr (List.mem_filter.mpr ⟨hp, by simp⟩)
    rcases hL : sortAsc (R.filter (fun r => p ≤ r)) with _ | ⟨a, t⟩
    · rw [hL] at hmem; simp at hmem
    · have hsorted := sortAsc_sorted (R.filter (fun r => p ≤ r))
      rw [hL, List.sorted_cons] at hsorted
      have hpa : p ≤ a := by
        have ha : a ∈ sortAsc (R.filter (fun r => p ≤ r)) := by
          rw [hL]; exact List.mem_cons_self a t
        have := List.mem_filter.mp ((sortAsc_perm _).mem_iff.mp ha)
        simpa using this.2
      have hap : a ≤ p := by
        rw [hL] at hmem
        rcases List.mem_cons.mp hmem with hmem | hmem
        · omega
        · exact hsorted.1 p hmem
      have hav : a = p := le_antisymm hap hpa
      rw [if_pos (by rw [List.head?_cons, hav])]
      apply List.eq_of_perm_of_sorted (r := fun a b => a ≤ b)
      · have h1 : t = (sortAsc (R.filter (fun r => p ≤ r))).erase p := by
          rw [hL, hav, List.erase_cons_head]
        rw [List.tail_cons, h1]
        exact (((sortAsc_perm _).erase p).trans
          (erase_filter_ge_perm p R hnd)).trans (sortAsc_perm _).symm
      · exact hsorted.2
      · exact sortAsc_sorted _
  · have hfil : R.filter (fun r => p ≤ r) = R.filter (fun r => p < r) := by
      apply List.filter_congr
      intro x hx
      have hxp : x ≠ p := fun he => hp (he ▸ hx)
      rw [decide_eq_decide]
      omega
    rw [hfil, if_neg]
    rcases hL : sortAsc (R.filter (fun r => p < r)) with _ | ⟨a, t⟩
    · simp
    · intro hh
      have hav : a = p := by
        simpa using hh
      have ha : a ∈ sortAsc (R.filter (fun r => p < r)) := by
        rw [hL]; exact List.mem_cons_self a t
      have hlt := List.mem_filter.mp ((sortAsc_perm _).mem_iff.mp ha)
      have : p < a := by simpa using hlt.2
      omega

/-- The head-shift applied to the descending at-or-below half of a
duplicate-free list yields exactly the descending strictly-below half. -/
theorem shiftHead_sortDesc_le (p : ℤ) (R : List ℤ) (hnd : R.Nodup) :
    (if (sortDesc (R.filter (fun r => r ≤ p))).head? = some p
     then (sortDesc (R.filter (fun r => r ≤ p))).tail
     else sortDesc (R.filter (fun r => r ≤ p))) =
    sortDesc (R.filter (fun r => r < p)) := by
  by_cases hp : p ∈ R
  · have hmem : p ∈ sortDesc (R.filter (fun r => r ≤ p)) :=
      (sortDesc_perm _).mem_iff.mpr (List.mem_filter.mpr ⟨hp, by simp⟩)
    rcases hL : sortDesc (R.filter (fun r => r ≤ p)) with _ | ⟨a, t⟩
    · rw [hL] at hmem; simp at hmem
    · have hsorted := sortDesc_sorted (R.filter (fun r => r ≤ p))
      rw [hL, List.sorted_cons] at hsorted
      have hpa : a ≤ p := by
        have ha : a ∈ sortDesc (R.filter (fun r => r ≤ p)) := by
          rw [hL]; exact List.mem_cons_self a t
        have := List.mem_filter.mp ((sortDesc_perm _).mem_iff.mp ha)
        simpa using this.2
      have hap : p ≤ a := by
        rw [hL] at hmem
        rcases List.mem_cons.mp hmem with hmem | hmem
        · omega
        · exact hsorted.1 p hmem
      have hav : a = p := le_antisymm hpa hap
      rw [if_pos (by rw [List.head?_cons, hav])]
      apply List.eq_of_perm_of_sorted (r := fun a b => b ≤ a)
      · have h1 : t = (sortDesc (R.filter (fun r => r ≤ p))).erase p := by
          rw [hL, hav, List.erase_cons_head]
        rw [List.tail_cons, h1]
        exact (((sortDesc_perm _).erase p).trans
          (erase_filter_le_perm p R hnd)).trans (sortDesc_perm _).symm
      · exact hsorted.2
      · exact sortDesc_sorted _
  · have hfil : R.filter (fun r => r ≤ p) = R.filter (fun r => r < p) := by
      apply List.filter_congr
      intro x hx
      have hxp : x ≠ p := fun he => hp (he ▸ hx)
      rw [decide_eq_decide]
      omega
    rw [hfil, if_neg]
    rcases hL : sortDesc (R.filter (fun r => r < p)) with _ | ⟨a, t⟩
    · simp
    · intro hh
      have hav : a = p := by
        simpa using hh
      have ha : a ∈ sortDesc (R.filter (fun r => r < p)) := by
        rw [hL]; exact List.mem_cons_self a t
      have hlt := List.mem_filter.mp ((sortDesc_perm _).mem_iff.mp ha)
      have : a < p := by simpa using hlt.2
      omega

/-- The SSTF visit tail is a permutation of the request queue. -/
theorem sstf_tail_perm (c : AlgCfg) :
    List.Perm ((sstfExec c).drop 1) c.requests := by
  show List.Perm (sstfGo c.requests.length c.initialPosition c.requests) c.requests
  exact sstfGo_perm _ _ _ (le_refl _)

/-- The LOOK visit tail holds exactly the requests other than the initial
position, as a multiset. -/
theorem look_tail_perm (c : AlgCfg) :
    List.Perm ((lookExec c).drop 1)
      (c.requests.filter (fun r => r ≠ c.initialPosition)) := by
  by_cases hd : c.direction = Direction.high
  · have hform : lookExec c = c.initialPosition ::
        (sortAsc (c.requests.filter (fun r => c.initialPosition < r)) ++
         sortDesc (c.requests.filter (fun r => r < c.initialPosition))) := by
      show (if c.direction = Direction.high
          then c.initialPosition ::
            (getRequestsGreaterThan c c.initialPosition true ++
             getRequestsLessThan c c.initialPosition true)
          else c.initialPosition ::
            (getRequestsLessThan c c.initialPosition true ++
             getRequestsGreaterThan c c.initialPosition true)) = _
      rw [if_pos hd]
      rfl
    rw [hform]
    show List.Perm
      (sortAsc (c.requests.filter (fun r => c.initialPosition < r)) ++
       sortDesc (c.requests.filter (fun r => r < c.initialPosition)))
      (c.requests.filter (fun r => r ≠ c.initialPosition))
    exact (((sortAsc_perm _).append (sortDesc_perm _)).trans
      List.perm_append_comm).trans (filter_lt_append_gt_perm _ _)
  · have hform : lookExec c = c.initialPosition ::
        (sortDesc (c.requests.filter (fun r => r < c.initialPosition)) ++
         sortAsc (c.requests.filter (fun r => c.initialPosition < r))) := by
      show (if c.direction = Direction.high
          then c.initialPosition ::
            (getRequestsGreaterThan c c.initialPosition true ++
             getRequestsLessThan c c.initialPosition true)
          else c.initialPosition ::
            (getRequestsLessThan c c.initialPosition true ++
             getRequestsGreaterThan c c.initialPosition true)) = _
      rw [if_neg hd]
      rfl
    rw [hform]
    show List.Perm
      (sortDesc (c.requests.filter (fun r => r < c.initialPosition)) ++
       sortAsc (c.requests.filter (fun r => c.initialPosition < r)))
      (c.requests.filter (fun r => r ≠ c.initialPosition))
    exact ((sortDesc_perm _).append (sortAsc_perm _)).trans
      (filter_lt_append_gt_perm _ _)

/-- The C-LOOK visit tail holds exactly the requests other than the initial
position, as a multiset. -/
theorem clook_tail_perm (c : AlgCfg) :
    List.Perm ((clookExec c).drop 1)
      (c.requests.filter (fun r => r ≠ c.initialPosition)) := by
  by_cases hcond : (c.initialPosition ∈ c.requests ∧
      getRequestsGreaterThan c c.initialPosition true = [] ∧
      getRequestsLessThan c c.initialPosition true ≠ [])
  · have hform : clookExec c = c.initialPosition ::
        sortDesc (c.requests.filter (fun r => r < c.initialPosition)) := by
      show (if (c.initialPosition ∈ c.requests ∧
          getRequestsGreaterThan c c.initialPosition true = [] ∧
          getRequestsLessThan c c.initialPosition true ≠ [])
          then c.initialPosition :: getRequestsLessThan c c.initialPosition true
          else c.initialPosition ::
            (getRequestsGreaterThan c c.initialPosition true ++
             getRequestsLessThan c c.initialPosition true)) = _
      rw [if_pos hcond]
      rfl
    have hgt : c.requests.filter (fun r => c.initialPosition < r) = [] := by
      have := hcond.2.1
      rw [show getRequestsGreaterThan c c.initialPosition true =
        sortAsc (c.requests.filter (fun r => c.initialPosition < r)) from rfl] at this
      exact sortAsc_eq_nil_iff.mp this
    rw [hform]
    show List.Perm
      (sortDesc (c.requests.filter (fun r => r < c.initialPosition)))
      (c.requests.filter (fun r => r ≠ c.initialPosition))
    have := filter_lt_append_gt_perm c.initialPosition c.requests
    rw [hgt, List.append_nil] at this
    exact (sortDesc_perm _).trans this
  · have hform : clookExec c = c.initialPosition ::
        (sortAsc (c.requests.filter (fun r => c.initialPosition < r)) ++
         sortDesc (c.requests.filter (fun r => r < c.initialPosition))) := by
      show (if (c.initialPosition ∈ c.requests ∧
          getRequestsGreaterThan c c.initialPosition true = [] ∧
          getRequestsLessThan c c.initialPosition true ≠ [])
          then c.initialPosition :: getRequestsLessThan c c.initialPosition true
          else c.initialPosition ::
            (getRequestsGreaterThan c c.initialPosition true ++
             getRequestsLessThan c c.initialPosition true)) = _
      rw [if_neg hcond]
      rfl
    rw [hform]
    show List.Perm
      (sortAsc (c.requests.filter (fun r => c.initialPosition < r)) ++
       sortDesc (c.requests.filter (fun r => r < c.initialPosition)))
      (c.requests.filter (fun r => r ≠ c.initialPosition))
    exact (((sortAsc_perm _).append (sortDesc_perm _)).trans
      List.perm_append_comm).trans (filter_lt_append_gt_perm _ _)

/-- The right half of the direction-agnostic C-SCAN (ascending at-or-above
with the pivot filtered out) is the strictly-above requests, as a
multiset. -/
theorem cscan_rightFiltered_perm (p : ℤ) (R : List ℤ) :
    List.Perm ((sortAsc (R.filter (fun r => p ≤ r))).filter (fun r => r ≠ p))
      (R.filter (fun r => p < r)) := by
  have h1 := (sortAsc_perm (R.filter (fun r => p ≤ r))).filter
    (fun r => decide (r ≠ p))
  have h2 : (R.filter (fun r => p ≤ r)).filter (fun r => r ≠ p) =
      R.filter (fun r => p < r) := by
    rw [List.filter_filter]
    apply List.filter_congr
    intro x hx
    rw [Bool.eq_iff_iff]
    simp only [Bool.and_eq_true, decide_eq_true_eq]
    omega
  rw [h2] at h1
  exact h1

/-- Closed form of the elevator SCAN over a duplicate-free request set. -/
theorem scanExec_eq (c : AlgCfg) (hnd : c.requests.Nodup) :
    scanExec c =
      if c.direction = Direction.high then
        (if sortDesc (c.requests.filter (fun r => r < c.initialPosition)) ≠ [] ∧ jsLast (c.initialPosition :: sortAsc (c.requests.filter (fun r => c.initialPosition < r))) ≠ c.maxTrack
         then (c.initialPosition :: sortAsc (c.requests.filter (fun r => c.initialPosition < r))) ++ [c.maxTrack]
         else c.initialPosition :: sortAsc (c.requests.filter (fun r => c.initialPosition < r))) ++ sortDesc (c.requests.filter (fun r => r < c.initialPosition))
      else
        (if sortAsc (c.requests.filter (fun r => c.initialPosition < r)) ≠ [] ∧ jsLast (c.initialPosition :: sortDesc (c.requests.filter (fun r => r < c.initialPosition))) ≠ 0
         then (c.initialPosition :: sortDesc (c.requests.filter (fun r => r < c.initialPosition))) ++ [0]
         else c.initialPosition :: sortDesc (c.requests.filter (fun r => r < c.initialPosition))) ++ sortAsc (c.requests.filter (fun r => c.initialPosition < r)) := by
  have hLS := shiftHead_sortDesc_le c.initialPosition c.requests hnd
  have hRS := shiftHead_sortAsc_ge c.initialPosition c.requests hnd
  show (if c.direction = Direction.high then (if (if (sortDesc (c.requests.filter (fun r => r ≤ c.initialPosition))).head? = some c.initialPosition then (sortDesc (c.requests.filter (fun r => r ≤ c.initialPosition))).tail else sortDesc (c.requests.filter (fun r => r ≤ c.initialPosition))) ≠ [] ∧ jsLast (c.initialPosition :: (if (sortAsc (c.requests.filter (fun r => c.initialPosition ≤ r))).head? = some c.initialPosition then (sortAsc (c.requests.filter (fun r => c.initialPosition ≤ r))).tail else sortAsc (c.requests.filter (fun r => c.initialPosition ≤ r)))) ≠ c.maxTrack then (c.initialPosition :: (if (sortAsc (c.requests.filter (fun r => c.initialPosition ≤ r))).head? = some c.initialPosition then (sortAsc (c.requests.filter (fun r => c.initialPosition ≤ r))).tail else sortAsc (c.requests.filter (fun r => c.initialPosition ≤ r)))) ++ [c.maxTrack] else c.initialPosition :: (if (sortAsc (c.requests.filter (fun r => c.initialPosition ≤ r))).head? = some c.initialPosition then (sortAsc (c.requests.filter (fun r => c.initialPosition ≤ r))).tail else sortAsc (c.requests.filter (fun r => c.initialPosition ≤ r)))) ++ (if (sortDesc (c.requests.filter (fun r => r ≤ c.initialPosition))).head? = some c.initialPosition then (sortDesc (c.requests.filter (fun r => r ≤ c.initialPosition))).tail else sortDesc (c.requests.filter (fun r => r ≤ c.initialPosition))) else (if (if (sortAsc (c.requests.filter (fun r => c.initialPosition ≤ r))).head? = some c.initialPosition then (sortAsc (c.requests.filter (fun r => c.initialPosition ≤ r))).tail else sortAsc (c.requests.filter (fun r => c.initialPosition ≤ r))) ≠ [] ∧ jsLast (c.initialPosition :: (if (sortDesc (c.requests.filter (fun r => r ≤ c.initialPosition))).head? = some c.initialPosition then (sortDesc (c.requests.filter (fun r => r ≤ c.initialPosition))).tail else sortDesc (c.requests.filter (fun r => r ≤ c.initialPosition)))) ≠ 0 then (c.initialPosition :: (if (sortDesc (c.requests.filter (fun r => r ≤ c.initialPosition))).head? = some c.initialPosition then (sortDesc (c.requests.filter (fun r => r ≤ c.initialPosition))).tail else sortDesc (c.requests.filter (fun r => r ≤ c.initialPosition)))) ++ [0] else c.initialPosition :: (if (sortDesc (c.requests.filter (fun r => r ≤ c.initialPosition))).head? = some c.initialPosition then (sortDesc (c.requests.filter (fun r => r ≤ c.initialPosition))).tail else sortDesc (c.requests.filter (fun r => r ≤ c.initialPosition)))) ++ (if (sortAsc (c.requests.filter (fun r => c.initialPosition ≤ r))).head? = some c.initialPosition then (sortAsc (c.requests.filter (fun r => c.initialPosition ≤ r))).tail else sortAsc (c.requests.filter (fun r => c.initialPosition ≤ r)))) = _
  rw [hLS, hRS]

/-- The SCAN visit tail holds the requests other than the initial position,
as a multiset, plus possibly one boundary entry (0 when sweeping low first,
`maxTrack` when sweeping high first). -/
theorem scan_tail_perm (c : AlgCfg) (hnd : c.requests.Nodup) :
    ∃ extra, (extra = [] ∨
        extra = [if c.direction = Direction.low then 0 else c.maxTrack]) ∧
      List.Perm ((scanExec c).drop 1)
        (extra ++ c.requests.filter (fun r => r ≠ c.initialPosition)) := by
  rw [scanExec_eq c hnd]
  by_cases hd : c.direction = Direction.high
  · rw [if_pos hd]
    have hextra : (if c.direction = Direction.low then (0 : ℤ) else c.maxTrack) =
        c.maxTrack := by
      rw [hd]; rfl
    by_cases hcond : (sortDesc (c.requests.filter (fun r => r < c.initialPosition)) ≠ [] ∧
        jsLast (c.initialPosition :: sortAsc (c.requests.filter (fun r => c.initialPosition < r))) ≠ c.maxTrack)
    · rw [if_pos hcond]
      refine ⟨[c.maxTrack], Or.inr (by rw [hextra]), ?_⟩
      show List.Perm ((sortAsc (c.requests.filter (fun r => c.initialPosition < r)) ++ [c.maxTrack]) ++ sortDesc (c.requests.filter (fun r => r < c.initialPosition)))
        ([c.maxTrack] ++ c.requests.filter (fun r => r ≠ c.initialPosition))
      have h1 : List.Perm ((sortAsc (c.requests.filter (fun r => c.initialPosition < r)) ++ [c.maxTrack]) ++ sortDesc (c.requests.filter (fun r => r < c.initialPosition)))
          ((c.requests.filter (fun r => c.initialPosition < r) ++ [c.maxTrack]) ++
           c.requests.filter (fun r => r < c.initialPosition)) :=
        ((sortAsc_perm _).append (List.Perm.refl _)).append (sortDesc_perm _)
      refine h1.trans ?_
      rw [List.append_assoc]
      refine List.Perm.trans List.perm_middle ?_
      exact List.Perm.cons _ (List.perm_append_comm.trans (filter_lt_append_gt_perm _ _))
    · rw [if_neg hcond]
      refine ⟨[], Or.inl rfl, ?_⟩
      show List.Perm (sortAsc (c.requests.filter (fun r => c.initialPosition < r)) ++ sortDesc (c.requests.filter (fun r => r < c.initialPosition)))
        ([] ++ c.requests.filter (fun r => r ≠ c.initialPosition))
      rw [List.nil_append]
      exact (((sortAsc_perm _).append (sortDesc_perm _)).trans
        List.perm_append_comm).trans (filter_lt_append_gt_perm _ _)
  · rw [if_neg hd]
    have hextra : (if c.direction = Direction.low then (0 : ℤ) else c.maxTrack) = 0 := by
      cases hdir : c.direction with
      | low => rfl
      | high => exact absurd hdir hd
    by_cases hcond : (sortAsc (c.requests.filter (fun r => c.initialPosition < r)) ≠ [] ∧
        jsLast (c.initialPosition :: sortDesc (c.requests.filter (fun r => r < c.initialPosition))) ≠ 0)
    · rw [if_pos hcond]
      refine ⟨[0], Or.inr (by rw [hextra]), ?_⟩
      show List.Perm ((sortDesc (c.requests.filter (fun r => r < c.initialPosition)) ++ [0]) ++ sortAsc (c.requests.filter (fun r => c.initialPosition < r)))
        ([0] ++ c.requests.filter (fun r => r ≠ c.initialPosition))
      have h1 : List.Perm ((sortDesc (c.requests.filter (fun r => r < c.initialPosition)) ++ [0]) ++ sortAsc (c.requests.filter (fun r => c.initialPosition < r)))
          ((c.requests.filter (fun r => r < c.initialPosition) ++ [0]) ++
           c.requests.filter (fun r => c.initialPosition < r)) :=
        ((sortDesc_perm _).append (List.Perm.refl _)).append (sortAsc_perm _)
      refine h1.trans ?_
      rw [List.append_assoc]
      refine List.Perm.trans List.perm_middle ?_
      exact List.Perm.cons _ (filter_lt_append_gt_perm _ _)
    · rw [if_neg hcond]
      refine ⟨[], Or.inl rfl, ?_⟩
      show List.Perm (sortDesc (c.requests.filter (fun r => r < c.initialPosition)) ++ sortAsc (c.requests.filter (fun r => c.initialPosition < r)))
        ([] ++ c.requests.filter (fun r => r ≠ c.initialPosition))
      rw [List.nil_append]
      exact ((sortDesc_perm _).append (sortAsc_perm _)).trans
        (filter_lt_append_gt_perm _ _)

/-- The direction-agnostic C-SCAN visit tail holds the requests other than
the initial position plus one literal 0 at the wrap whenever requests lie
below the initial position, as a multiset. -/
theorem cscan_tail_perm (c : AlgCfg) :
    List.Perm ((cscanExec c).drop 1)
      (if c.requests.filter (fun r => r < c.initialPosition) = []
       then c.requests.filter (fun r => r ≠ c.initialPosition)
       else 0 :: c.requests.filter (fun r => r ≠ c.initialPosition)) := by
  by_cases hne : sortDesc (c.requests.filter (fun r => r < c.initialPosition)) ≠ []
  · have hf : c.requests.filter (fun r => r < c.initialPosition) ≠ [] := by
      intro hnil
      exact hne (by rw [hnil]; rfl)
    have hform : cscanExec c = c.initialPosition ::
        ((sortAsc (c.requests.filter (fun r => c.initialPosition ≤ r))).filter
          (fun r => r ≠ c.initialPosition) ++
         0 :: sortDesc (c.requests.filter (fun r => r < c.initialPosition))) := by
      show (if sortDesc (c.requests.filter (fun r => r < c.initialPosition)) ≠ []
          then c.initialPosition ::
            ((sortAsc (c.requests.filter (fun r => c.initialPosition ≤ r))).filter
              (fun r => r ≠ c.initialPosition) ++ 0 :: sortDesc (c.requests.filter (fun r => r < c.initialPosition)))
          else c.initialPosition ::
            (sortAsc (c.requests.filter (fun r => c.initialPosition ≤ r))).filter
              (fun r => r ≠ c.initialPosition)) = _
      rw [if_pos hne]
    rw [hform, if_neg hf]
    show List.Perm
      ((sortAsc (c.requests.filter (fun r => c.initialPosition ≤ r))).filter
        (fun r => r ≠ c.initialPosition) ++ 0 :: sortDesc (c.requests.filter (fun r => r < c.initialPosition)))
      (0 :: c.requests.filter (fun r => r ≠ c.initialPosition))
    have h1 : List.Perm
        ((sortAsc (c.requests.filter (fun r => c.initialPosition ≤ r))).filter
          (fun r => r ≠ c.initialPosition) ++ 0 :: sortDesc (c.requests.filter (fun r => r < c.initialPosition)))
        (c.requests.filter (fun r => c.initialPosition < r) ++
         0 :: c.requests.filter (fun r => r < c.initialPosition)) :=
      (cscan_rightFiltered_perm _ _).append (List.Perm.cons 0 (sortDesc_perm _))
    refine h1.trans (List.Perm.trans List.perm_middle ?_)
    exact List.Perm.cons _ (List.perm_append_comm.trans (filter_lt_append_gt_perm _ _))
  · have hf : c.requests.filter (fun r => r < c.initialPosition) = [] := by
      by_contra hc
      exact hne (by simpa [sortDesc_eq_nil_iff] using hc)
    have hform : cscanExec c = c.initialPosition ::
        (sortAsc (c.requests.filter (fun r => c.initialPosition ≤ r))).filter
          (fun r => r ≠ c.initialPosition) := by
      show (if sortDesc (c.requests.filter (fun r => r < c.initialPosition)) ≠ []
          then c.initialPosition ::
            ((sortAsc (c.requests.filter (fun r => c.initialPosition ≤ r))).filter
              (fun r => r ≠ c.initialPosition) ++ 0 :: sortDesc (c.requests.filter (fun r => r < c.initialPosition)))
          else c.initialPosition ::
            (sortAsc (c.requests.filter (fun r => c.initialPosition ≤ r))).filter
              (fun r => r ≠ c.initialPosition)) = _
      rw [if_neg hne]
    rw [hform, if_pos hf]
    show List.Perm
      ((sortAsc (c.requests.filter (fun r => c.initialPosition ≤ r))).filter
        (fun r => r ≠ c.initialPosition))
      (c.requests.filter (fun r => r ≠ c.initialPosition))
    have h2 := filter_lt_append_gt_perm c.initialPosition c.requests
    rw [hf, List.nil_append] at h2
    exact (cscan_rightFiltered_perm _ _).trans h2

/-- Every policy's visit sequence starts at the initial head position. -/
theorem look_head (c : AlgCfg) : (lookExec c).head? = some c.initialPosition := by
  rcases c with ⟨h, M, R, d⟩
  cases d <;> rfl

theorem clook_head (c : AlgCfg) : (clookExec c).head? = some c.initialPosition := by
  show (if (c.initialPosition ∈ c.requests ∧
      getRequestsGreaterThan c c.initialPosition true = [] ∧
      getRequestsLessThan c c.initialPosition true ≠ [])
      then c.initialPosition :: getRequestsLessThan c c.initialPosition true
      else c.initialPosition ::
        (getRequestsGreaterThan c c.initialPosition true ++
         getRequestsLessThan c c.initialPosition true)).head? = some c.initialPosition
  split <;> rfl

theorem scan_head (c : AlgCfg) : (scanExec c).head? = some c.initialPosition := by
  show ((if c.direction = Direction.high then (if (if (sortDesc (c.requests.filter (fun r => r ≤ c.initialPosition))).head? = some c.initialPosition then (sortDesc (c.requests.filter (fun r => r ≤ c.initialPosition))).tail else sortDesc (c.requests.filter (fun r => r ≤ c.initialPosition))) ≠ [] ∧ jsLast (c.initialPosition :: (if (sortAsc (c.requests.filter (fun r => c.initialPosition ≤ r))).head? = some c.initialPosition then (sortAsc (c.requests.filter (fun r => c.initialPosition ≤ r))).tail else sortAsc (c.requests.filter (fun r => c.initialPosition ≤ r)))) ≠ c.maxTrack then (c.initialPosition :: (if (sortAsc (c.requests.filter (fun r => c.initialPosition ≤ r))).head? = some c.initialPosition then (sortAsc (c.requests.filter (fun r => c.initialPosition ≤ r))).tail else sortAsc (c.requests.filter (fun r => c.initialPosition ≤ r)))) ++ [c.maxTrack] else c.initialPosition :: (if (sortAsc (c.requests.filter (fun r => c.initialPosition ≤ r))).head? = some c.initialPosition then (sortAsc (c.requests.filter (fun r => c.initialPosition ≤ r))).tail else sortAsc (c.requests.filter (fun r => c.initialPosition ≤ r)))) ++ (if (sortDesc (c.requests.filter (fun r => r ≤ c.initialPosition))).head? = some c.initialPosition then (sortDesc (c.requests.filter (fun r => r ≤ c.initialPosition))).tail else sortDesc (c.requests.filter (fun r => r ≤ c.initialPosition))) else (if (if (sortAsc (c.requests.filter (fun r => c.initialPosition ≤ r))).head? = some c.initialPosition then (sortAsc (c.requests.filter (fun r => c.initialPosition ≤ r))).tail else sortAsc (c.requests.filter (fun r => c.initialPosition ≤ r))) ≠ [] ∧ jsLast (c.initialPosition :: (if (sortDesc (c.requests.filter (fun r => r ≤ c.initialPosition))).head? = some c.initialPosition then (sortDesc (c.requests.filter (fun r => r ≤ c.initialPosition))).tail else sortDesc (c.requests.filter (fun r => r ≤ c.initialPosition)))) ≠ 0 then (c.initialPosition :: (if (sortDesc (c.requests.filter (fun r => r ≤ c.initialPosition))).head? = some c.initialPosition then (sortDesc (c.requests.filter (fun r => r ≤ c.initialPosition))).tail else sortDesc (c.requests.filter (fun r => r ≤ c.initialPosition)))) ++ [0] else c.initialPosition :: (if (sortDesc (c.requests.filter (fun r => r ≤ c.initialPosition))).head? = some c.initialPosition then (sortDesc (c.requests.filter (fun r => r ≤ c.initialPosition))).tail else sortDesc (c.requests.filter (fun r => r ≤ c.initialPosition)))) ++ (if (sortAsc (c.requests.filter (fun r => c.initialPosition ≤ r))).head? = some c.initialPosition then (sortAsc (c.requests.filter (fun r => c.initialPosition ≤ r))).tail else sortAsc (c.requests.filter (fun r => c.initialPosition ≤ r))))).head? = some c.initialPosition
  split_ifs <;> rfl

theorem cscan_head (c : AlgCfg) : (cscanExec c).head? = some c.initialPosition := by
  show (if getRequestsLessThan c c.initialPosition true ≠ []
      then c.initialPosition ::
        ((getRequestsGreaterOrEqual c c.initialPosition true).filter
          (fun r => r ≠ c.initialPosition) ++
         0 :: getRequestsLessThan c c.initialPosition true)
      else c.initialPosition ::
        (getRequestsGreaterOrEqual c c.initialPosition true).filter
          (fun r => r ≠ c.initialPosition)).head? = some c.initialPosition
  split <;> rfl

/-- The dedup loop produces no duplicates and nothing already seen. -/
theorem dedupFirst_go_nodup :
    ∀ (l seen : List ℤ), (dedupFirst.go seen l).Nodup ∧
      ∀ x ∈ dedupFirst.go seen l, x ∉ seen := by
  intro l
  induction l with
  | nil => intro seen; simp [dedupFirst.go]
  | cons x xs ih =>
    intro seen
    by_cases hx : x ∈ seen
    · simpa [dedupFirst.go, hx] using ih seen
    · constructor
      · rw [dedupFirst.go, if_neg hx, List.nodup_cons]
        refine ⟨fun hmem => ?_, (ih (x :: seen)).1⟩
        exact (ih (x :: seen)).2 x hmem (List.mem_cons_self x seen)
      · intro z hz
        rw [dedupFirst.go, if_neg hx] at hz
        rcases List.mem_cons.mp hz with hz | hz
        · exact hz ▸ hx
        · exact fun hs => (ih (x :: seen)).2 z hz (List.mem_cons_of_mem x hs)

/-- The dedup loop only keeps elements of its input. -/
theorem dedupFirst_go_subset :
    ∀ (l seen : List ℤ) (x : ℤ), x ∈ dedupFirst.go seen l → x ∈ l := by
  intro l
  induction l with
  | nil => intro seen x hx; simp [dedupFirst.go] at hx
  | cons y ys ih =>
    intro seen x hx
    by_cases hy : y ∈ seen
    · rw [dedupFirst.go, if_pos hy] at hx
      exact List.mem_cons_of_mem y (ih seen x hx)
    · rw [dedupFirst.go, if_neg hy] at hx
      rcases List.mem_cons.mp hx with hx | hx
      · exact hx ▸ List.mem_cons_self y ys
      · exact List.mem_cons_of_mem y (ih (y :: seen) x hx)

/-- `convertGo2` yields one record per remaining sequence entry. -/
theorem convertGo2_length :
    ∀ (rest : List ℤ) (prev : ℤ) (i : ℕ) (t : ℤ) (p sv : List ℤ),
      (convertGo2 prev rest i t p sv).length = rest.length := by
  intro rest
  induction rest with
  | nil => intro prev i t p sv; rfl
  | cons cur rest' ih =>
    intro prev i t p sv
    simp only [convertGo2, List.length_cons, ih]

/-- The `k`-th record of `convertGo2` sits at the `k`-th remaining sequence
entry. -/
theorem convertGo2_get_head :
    ∀ (rest : List ℤ) (prev : ℤ) (i : ℕ) (t : ℤ) (p sv : List ℤ) (k : ℕ),
      ((convertGo2 prev rest i t p sv).get? k).map StepRecord.headPosition = rest.get? k := by
  intro rest
  induction rest with
  | nil => intro prev i t p sv k; rfl
  | cons cur rest' ih =>
    intro prev i t p sv k
    cases k with
    | zero => rfl
    | succ k => simpa [convertGo2] using ih cur (i + 1) _ _ _ k

/-- The `k`-th record of `convertGo2` points at the `(k+1)`-th remaining
entry, `null` when there is none. -/
theorem convertGo2_get_next :
    ∀ (rest : List ℤ) (prev : ℤ) (i : ℕ) (t : ℤ) (p sv : List ℤ) (k : ℕ),
      ((convertGo2 prev rest i t p sv).get? k).map StepRecord.nextTarget =
        (rest.get? k).map (fun _ => rest.get? (k + 1)) := by
  intro rest
  induction rest with
  | nil => intro prev i t p sv k; rfl
  | cons cur rest' ih =>
    intro prev i t p sv k
    cases k with
    | zero =>
      cases rest' with
      | nil => rfl
      | cons n rest'' => rfl
    | succ k => simpa [convertGo2] using ih cur (i + 1) _ _ _ k

/-- `getLast?` of a cons with nonempty tail is `getLast?` of the tail. -/
theorem getLast?_cons_ne_nil {α : Type} (a : α) {l : List α} (h : l ≠ []) :
    (a :: l).getLast? = l.getLast? := by
  cases l with
  | nil => exact absurd rfl h
  | cons b t => exact List.getLast?_cons_cons

theorem updateStatistics_allSteps (s : SimState) :
    (updateStatistics s).allSteps = s.allSteps := by
  unfold updateStatistics
  rcases getCurrentStep s with _ | r <;> rfl

theorem updateStatistics_currentStepIndex (s : SimState) :
    (updateStatistics s).currentStepIndex = s.currentStepIndex := by
  unfold updateStatistics
  rcases getCurrentStep s with _ | r <;> rfl

theorem updateStatistics_initialHeadPosition (s : SimState) :
    (updateStatistics s).initialHeadPosition = s.initialHeadPosition := by
  unfold updateStatistics
  rcases getCurrentStep s with _ | r <;> rfl

theorem updateStatistics_requestQueue (s : SimState) :
    (updateStatistics s).requestQueue = s.requestQueue := by
  unfold updateStatistics
  rcases getCurrentStep s with _ | r <;> rfl

/-- With a nonempty timeline and a nonnegative index, `getCurrentStep` reads
the record at the clamped index. -/
theorem getCurrentStep_some (t : SimState) (hne : t.allSteps ≠ [])
    (h0 : 0 ≤ t.currentStepIndex) :
    ∃ r, getCurrentStep t = some r ∧
      t.allSteps.get? (min t.currentStepIndex ((t.allSteps.length : ℤ) - 1)).toNat =
        some r := by
  have hlen : 1 ≤ t.allSteps.length := List.length_pos.mpr hne
  have hnn : 0 ≤ min t.currentStepIndex ((t.allSteps.length : ℤ) - 1) := by
    have : (0 : ℤ) ≤ (t.allSteps.length : ℤ) - 1 := by
      have : (1 : ℤ) ≤ (t.allSteps.length : ℤ) := by exact_mod_cast hlen
      omega
    exact le_min h0 this
  have hlt : (min t.currentStepIndex ((t.allSteps.length : ℤ) - 1)).toNat <
      t.allSteps.length := by
    have h1 : min t.currentStepIndex ((t.allSteps.length : ℤ) - 1) ≤
        (t.allSteps.length : ℤ) - 1 := min_le_right _ _
    omega
  rcases hget : t.allSteps.get?
      (min t.currentStepIndex ((t.allSteps.length : ℤ) - 1)).toNat with _ | r
  · rw [List.get?_eq_none] at hget
    omega
  · refine ⟨r, ?_, rfl⟩
    unfold getCurrentStep jsIndex
    rw [if_neg hne, if_neg (not_lt.mpr hnn)]
    exact hget

/-- `getCurrentStep` does not change across a statistics refresh. -/
theorem getCurrentStep_updateStatistics (t : SimState) :
    getCurrentStep (updateStatistics t) = getCurrentStep t := by
  rcases h : getCurrentStep t with _ | r
  · simp [updateStatistics, h]
  · by_cases hne : t.allSteps = []
    · have hr : r = createInitialStep t.initialHeadPosition t.pendingRequests := by
        unfold getCurrentStep at h
        rw [if_pos hne] at h
        exact (Option.some.inj h).symm
      unfold updateStatistics
      rw [h]
      unfold getCurrentStep
      rw [if_pos (by simpa using hne)]
      rw [hr]
      rfl
    · unfold updateStatistics
      rw [h]
      unfold getCurrentStep jsIndex at h ⊢
      rw [if_neg hne] at h
      rw [if_neg (by simpa using hne)]
      exact h

/-- A second statistics refresh changes nothing. -/
theorem updateStatistics_idem (t : SimState) :
    updateStatistics (updateStatistics t) = updateStatistics t := by
  rcases h : getCurrentStep t with _ | r
  · simp [updateStatistics, h]
  · have h2 := getCurrentStep_updateStatistics t
    rw [h] at h2
    conv_lhs => rw [updateStatistics, h2, updateStatistics, h]
    conv_rhs => rw [updateStatistics, h]

/-- Two states agreeing on everything `updateStatistics` reads (outside the
statistics fields it overwrites) refresh to the same state. -/
theorem updateStatistics_congr (t t' : SimState)
    (hih : t.initialHeadPosition = t'.initialHeadPosition)
    (hrq : t.requestQueue = t'.requestQueue)
    (has : t.allSteps = t'.allSteps)
    (hidx : t.currentStepIndex = t'.currentStepIndex)
    (hne : t.allSteps ≠ []) (h0 : 0 ≤ t.currentStepIndex) :
    updateStatistics t = updateStatistics t' := by
  obtain ⟨r, hr, _⟩ := getCurrentStep_some t hne h0
  have hr' : getCurrentStep t' = some r := by
    unfold getCurrentStep jsIndex at hr ⊢
    rw [if_neg hne] at hr
    rw [if_neg (has ▸ hne), ← has, ← hidx]
    exact hr
  cases t with
  | mk t1 t2 t3 t4 t5 t6 t7 t8 t9 t10 t11 =>
    cases t' with
    | mk u1 u2 u3 u4 u5 u6 u7 u8 u9 u10 u11 =>
      dsimp at hih hrq has hidx
      subst hih; subst hrq; subst has; subst hidx
      unfold updateStatistics
      rw [hr, hr']

/-- `jumpToStep` unfolded. -/
theorem jumpToStep_eq_def (i : ℤ) (s : SimState) :
    jumpToStep i s =
      updateStatistics
        { s with currentStepIndex := max 0 (min i ((s.allSteps.length : ℤ) - 1)) } := rfl

/-- `jumpToStep` twice at the same index is `jumpToStep` once. -/
theorem jumpToStep_idem (i : ℤ) (s : SimState) :
    jumpToStep i (jumpToStep i s) = jumpToStep i s := by
  have hAS : (jumpToStep i s).allSteps = s.allSteps := by
    rw [jumpToStep_eq_def, updateStatistics_allSteps]
  have hIdx : (jumpToStep i s).currentStepIndex =
      max 0 (min i ((s.allSteps.length : ℤ) - 1)) := by
    rw [jumpToStep_eq_def, updateStatistics_currentStepIndex]
  calc jumpToStep i (jumpToStep i s)
      = updateStatistics { jumpToStep i s with
          currentStepIndex := max 0 (min i (((jumpToStep i s).allSteps.length : ℤ) - 1)) } :=
        jumpToStep_eq_def i _
    _ = updateStatistics { jumpToStep i s with
          currentStepIndex := (jumpToStep i s).currentStepIndex } := by rw [hAS, ← hIdx]
    _ = updateStatistics (jumpToStep i s) := rfl
    _ = updateStatistics (updateStatistics
          { s with currentStepIndex := max 0 (min i ((s.allSteps.length : ℤ) - 1)) }) := by
        rw [jumpToStep_eq_def]
    _ = updateStatistics
          { s with currentStepIndex := max 0 (min i ((s.allSteps.length : ℤ) - 1)) } :=
        updateStatistics_idem _
    _ = jumpToStep i s := (jumpToStep_eq_def i s).symm

/-- Stepping forward `k` times from a jump to 0 lands on a jump to `k`, as
long as `k` does not pass the end of the timeline. -/
theorem iterate_nextStep_eq_jump (s : SimState) (hne : s.allSteps ≠ []) :
    ∀ k : ℕ, (k : ℤ) ≤ (s.allSteps.length : ℤ) - 1 →
      (nextStepFn)^[k] (jumpToStep 0 s) = jumpToStep (k : ℤ) s := by
  have hlen : 1 ≤ s.allSteps.length := List.length_pos.mpr hne
  intro k
  induction k with
  | zero => intro _; rfl
  | succ k ih =>
    intro hk
    have hk' : (k : ℤ) ≤ (s.allSteps.length : ℤ) - 1 := by push_cast at hk ⊢; omega
    rw [Function.iterate_succ_apply', ih hk']
    have hAS : (jumpToStep (k : ℤ) s).allSteps = s.allSteps := by
      rw [jumpToStep_eq_def, updateStatistics_allSteps]
    have hIdx : (jumpToStep (k : ℤ) s).currentStepIndex = (k : ℤ) := by
      rw [jumpToStep_eq_def, updateStatistics_currentStepIndex]
      show max 0 (min (k : ℤ) ((s.allSteps.length : ℤ) - 1)) = (k : ℤ)
      omega
    have hklt : (jumpToStep (k : ℤ) s).currentStepIndex <
        ((jumpToStep (k : ℤ) s).allSteps.length : ℤ) - 1 := by
      rw [hAS, hIdx]
      push_cast at hk ⊢
      omega
    rw [nextStepFn, if_pos hklt, hIdx]
    conv_rhs => rw [jumpToStep_eq_def]
    refine updateStatistics_congr _ _ ?_ ?_ ?_ ?_ ?_ ?_
    · show (jumpToStep (k : ℤ) s).initialHeadPosition = s.initialHeadPosition
      rw [jumpToStep_eq_def, updateStatistics_initialHeadPosition]
    · show (jumpToStep (k : ℤ) s).requestQueue = s.requestQueue
      rw [jumpToStep_eq_def, updateStatistics_requestQueue]
    · show (jumpToStep (k : ℤ) s).allSteps = s.allSteps
      exact hAS
    · show (k : ℤ) + 1 = max 0 (min ((k + 1 : ℕ) : ℤ) ((s.allSteps.length : ℤ) - 1))
      push_cast at hk ⊢
      omega
    · show (jumpToStep (k : ℤ) s).allSteps ≠ []
      rw [hAS]; exact hne
    · show (0 : ℤ) ≤ (k : ℤ) + 1
      omega

/-- The statistics installed by a jump to a valid index `j` are those of the
`j`-th record. -/
theorem jumpToStep_stats (s : SimState) (hne : s.allSteps ≠ []) (j : ℤ)
    (h0 : 0 ≤ j) (h1 : j ≤ (s.allSteps.length : ℤ) - 1) :
    ∃ r, s.allSteps.get? j.toNat = some r ∧
      (jumpToStep j s).currentHeadPosition = r.headPosition ∧
      (jumpToStep j s).totalHeadMovement = r.totalHeadMovement ∧
      (jumpToStep j s).pendingRequests = r.pendingQueue ∧
      (jumpToStep j s).servicedRequests = r.servicedQueue ∧
      (jumpToStep j s).nextTarget = r.nextTarget ∧
      (jumpToStep j s).seeksCount = (if 0 < r.step then r.step else 0) ∧
      (jumpToStep j s).averageSeekTime =
        (if 0 < r.step then (r.totalHeadMovement : ℚ) / (r.step : ℚ) else 0) := by
  have hclamp : max 0 (min j ((s.allSteps.length : ℤ) - 1)) = j := by omega
  have hjump : jumpToStep j s = updateStatistics { s with currentStepIndex := j } := by
    rw [jumpToStep_eq_def, hclamp]
  obtain ⟨r, hr, hget⟩ := getCurrentStep_some { s with currentStepIndex := j }
    (by exact hne) (by exact h0)
  have hmin : min ({ s with currentStepIndex := j } : SimState).currentStepIndex
      ((({ s with currentStepIndex := j } : SimState).allSteps.length : ℤ) - 1) = j := by
    show min j ((s.allSteps.length : ℤ) - 1) = j
    omega
  rw [hmin] at hget
  refine ⟨r, hget, ?_⟩
  rw [hjump]
  unfold updateStatistics
  rw [hr]
  exact ⟨rfl, rfl, rfl, rfl, rfl, rfl, rfl⟩

/-- Each replay control keeps the timeline intact and the index inside
`[0, length - 1]`. -/
theorem replayStep_preserves (a : ReplayAct) (s : SimState) (hne : s.allSteps ≠ [])
    (h0 : 0 ≤ s.currentStepIndex)
    (h1 : s.currentStepIndex ≤ (s.allSteps.length : ℤ) - 1) :
    (replayStep a s).allSteps = s.allSteps ∧
    0 ≤ (replayStep a s).currentStepIndex ∧
    (replayStep a s).currentStepIndex ≤ (s.allSteps.length : ℤ) - 1 := by
  have hlen := List.length_pos.mpr hne
  cases a with
  | jump i =>
    refine ⟨?_, ?_, ?_⟩
    · show (jumpToStep i s).allSteps = s.allSteps
      rw [jumpToStep_eq_def, updateStatistics_allSteps]
    · show 0 ≤ (jumpToStep i s).currentStepIndex
      rw [jumpToStep_eq_def, updateStatistics_currentStepIndex]
      exact le_max_left 0 _
    · show (jumpToStep i s).currentStepIndex ≤ (s.allSteps.length : ℤ) - 1
      rw [jumpToStep_eq_def, updateStatistics_currentStepIndex]
      show max 0 (min i ((s.allSteps.length : ℤ) - 1)) ≤ (s.allSteps.length : ℤ) - 1
      omega
  | next =>
    unfold replayStep nextStepFn
    by_cases hc : s.currentStepIndex < (s.allSteps.length : ℤ) - 1
    · rw [if_pos hc]
      refine ⟨updateStatistics_allSteps _, ?_, ?_⟩
      · rw [updateStatistics_currentStepIndex]
        show 0 ≤ s.currentStepIndex + 1
        omega
      · rw [updateStatistics_currentStepIndex]
        show s.currentStepIndex + 1 ≤ (s.allSteps.length : ℤ) - 1
        omega
    · rw [if_neg hc]
      exact ⟨rfl, h0, h1⟩
  | prev =>
    unfold replayStep previousStepFn
    by_cases hc : 0 < s.currentStepIndex
    · rw [if_pos hc]
      refine ⟨updateStatistics_allSteps _, ?_, ?_⟩
      · rw [updateStatistics_currentStepIndex]
        show 0 ≤ s.currentStepIndex - 1
        omega
      · rw [updateStatistics_currentStepIndex]
        show s.currentStepIndex - 1 ≤ (s.allSteps.length : ℤ) - 1
        omega
    · rw [if_neg hc]
      exact ⟨rfl, h0, h1⟩

/-- Any sequence of replay controls keeps the timeline intact and the index
inside `[0, length - 1]`. -/
theorem applyActs_preserves (acts : List ReplayAct) :
    ∀ (s : SimState), s.allSteps ≠ [] → 0 ≤ s.currentStepIndex →
      s.currentStepIndex ≤ (s.allSteps.length : ℤ) - 1 →
      (applyActs acts s).allSteps = s.allSteps ∧
      0 ≤ (applyActs acts s).currentStepIndex ∧
      (applyActs acts s).currentStepIndex ≤ (s.allSteps.length : ℤ) - 1 := by
  induction acts with
  | nil => intro s _ h2 h3; exact ⟨rfl, h2, h3⟩
  | cons a acts ih =>
    intro s h1 h2 h3
    have hstep := replayStep_preserves a s h1 h2 h3
    have hne' : (replayStep a s).allSteps ≠ [] := by rw [hstep.1]; exact h1
    have hrec := ih (replayStep a s) hne' hstep.2.1 (by rw [hstep.1]; exact hstep.2.2)
    refine ⟨?_, hrec.2.1, ?_⟩
    · show (applyActs acts (replayStep a s)).allSteps = s.allSteps
      rw [hrec.1, hstep.1]
    · show (applyActs acts (replayStep a s)).currentStepIndex ≤ _
      have h4 := hrec.2.2
      rw [hstep.1] at h4
      exact h4

/-- `validateParameters` (earlier revision) passes exactly when the queue is
nonempty, the initial position lies in `[0, maxTrack]` and `maxTrack ≥ 10`. -/
theorem validateParameters1_eq_nil_iff (init M : ℤ) (rq : List ℤ) :
    validateParameters1 init M rq = [] ↔
      (rq ≠ [] ∧ ¬(init < 0 ∨ M < init) ∧ ¬(M < 10)) := by
  unfold validateParameters1
  split_ifs with h1 h2 h3 <;> simp_all

/-- `validateInput` throws whenever the queue is empty, the initial position
is out of range, or some request is out of range. -/
theorem validateInput_error (c : AlgCfg)
    (hbad : c.requests = [] ∨ c.initialPosition < 0 ∨ c.maxTrack < c.initialPosition ∨
      ∃ r ∈ c.requests, r < 0 ∨ c.maxTrack < r) :
    ∃ e, validateInput c = Except.error e := by
  unfold validateInput
  split_ifs with h1 h2 h3
  · exact ⟨_, rfl⟩
  · exact ⟨_, rfl⟩
  · exact ⟨_, rfl⟩
  · exfalso
    rcases hbad with h | h | h | h
    · exact h1 h
    · exact h2 (Or.inl h)
    · exact h2 (Or.inr h)
    · rcases h with ⟨r, hr, hcond⟩
      rw [List.any_eq_true] at h3
      exact h3 ⟨r, hr, by simpa using hcond⟩

/-- The last record produced by `convertGo2` carries no next target. -/
theorem convertGo2_getLast_next :
    ∀ (rest : List ℤ) (prev : ℤ) (i : ℕ) (t : ℤ) (p sv : List ℤ), rest ≠ [] →
      ((convertGo2 prev rest i t p sv).getLast?).map StepRecord.nextTarget = some none := by
  intro rest
  induction rest with
  | nil => intro prev i t p sv hne; exact absurd rfl hne
  | cons cur rest' ih =>
    intro prev i t p sv _
    cases rest' with
    | nil => rfl
    | cons r2 rest'' =>
      have hcons : convertGo2 prev (cur :: r2 :: rest'') i t p sv =
          _ :: convertGo2 cur (r2 :: rest'') (i + 1) _ _ _ := rfl
      rw [hcons]
      have hne2 : convertGo2 cur (r2 :: rest'') (i + 1)
          (stepCore prev cur t p sv).1 (stepCore prev cur t p sv).2.1
          (stepCore prev cur t p sv).2.2 ≠ [] := by
        have := convertGo2_length (r2 :: rest'') cur (i + 1)
          (stepCore prev cur t p sv).1 (stepCore prev cur t p sv).2.1
          (stepCore prev cur t p sv).2.2
        intro hn
        rw [hn] at this
        simp at this
      rw [getLast?_cons_ne_nil _ hne2]
      exact ih cur (i + 1) _ _ _ (by simp)

end DiskSim

section Claims

open DiskSim

/-- C4.  With head 53, maxTrack 199 and requests `[98,183,37,122,14,124,65,67]`
in arrival order, `FCFS.execute` returns `[53,98,183,37,122,14,124,65,67]` and
`calculateTotalMovement` over that sequence is 640. -/
theorem fcfs_concrete_sequence_and_movement :
    fcfsExec (mkAlgCfg 53 199 [98, 183, 37, 122, 14, 124, 65, 67] none) =
      [53, 98, 183, 37, 122, 14, 124, 65, 67] ∧
    calculateTotalMovement [53, 98, 183, 37, 122, 14, 124, 65, 67] = 640 := by
  constructor
  · decide
  · decide

/-- C8.  Every direction-sensitive policy (LOOK, C-LOOK, the elevator SCAN
and the direction-aware C-SCAN — and vacuously the direction-agnostic
C-SCAN) produces, when constructed with no direction hint, the same visit
sequence as when constructed with the hint `'low'`, because the
`AlgorithmBase` constructor defaults the hint to `'low'`. -/
theorem default_direction_is_low (h M : ℤ) (R : List ℤ) :
    lookExec (mkAlgCfg h M R none) = lookExec (mkAlgCfg h M R (some Direction.low)) ∧
    clookExec (mkAlgCfg h M R none) = clookExec (mkAlgCfg h M R (some Direction.low)) ∧
    scanExec (mkAlgCfg h M R none) = scanExec (mkAlgCfg h M R (some Direction.low)) ∧
    cscan2Exec (mkAlgCfg h M R none) = cscan2Exec (mkAlgCfg h M R (some Direction.low)) ∧
    cscanExec (mkAlgCfg h M R none) = cscanExec (mkAlgCfg h M R (some Direction.low)) := by
  refine ⟨rfl, rfl, rfl, rfl, rfl⟩

/-- C6.  `findClosestRequest(p, candidates)` on a nonempty candidate list
returns the element minimizing the absolute distance to `p`, and on ties the
one occurring earlier in the list: the candidates are split as
`l₁ ++ m :: l₂` with every element of `l₁` strictly farther from `p` than
`m` and every element of the whole list no closer than `m`. -/
theorem findClosestRequest_first_min (currentPos : ℤ) (l : List ℤ) (hne : l ≠ []) :
    ∃ m l₁ l₂, findClosestRequest currentPos l = some m ∧
      l = l₁ ++ m :: l₂ ∧
      (∀ x ∈ l, |m - currentPos| ≤ |x - currentPos|) ∧
      (∀ x ∈ l₁, |m - currentPos| < |x - currentPos|) := by
  match l with
  | [] => exact absurd rfl hne
  | x :: xs =>
    obtain ⟨l₁, l₂, heq, hstrict, hle⟩ := foldl_closerTo_split currentPos xs x
    refine ⟨_, l₁, l₂, rfl, heq, ?_, hstrict⟩
    intro z hz
    rw [heq] at hz
    rcases List.mem_append.mp hz with hz | hz
    · exact le_of_lt (hstrict z hz)
    · rcases List.mem_cons.mp hz with hz | hz
      · subst hz; exact le_refl _
      · exact hle z hz

/-- Witness for C6 at `p = 5`, candidates `[7, 3]`: both are at distance 2,
and the first-encountered `7` is returned. -/
theorem findClosestRequest_first_min_witness :
    ([7, 3] : List ℤ) ≠ [] ∧
    (∃ m l₁ l₂, findClosestRequest 5 [7, 3] = some m ∧
      ([7, 3] : List ℤ) = l₁ ++ m :: l₂ ∧
      (∀ x ∈ ([7, 3] : List ℤ), |m - 5| ≤ |x - 5|) ∧
      (∀ x ∈ l₁, |m - 5| < |x - 5|)) :=
  ⟨by decide, findClosestRequest_first_min 5 [7, 3] (by decide)⟩

/-- C1 (amended).  For every configuration whose request set is
duplicate-free, each of the six policies returns a sequence starting at the
initial head position whose remainder covers the request set as follows:
arrival-order (FCFS) returns exactly the requests in order; nearest-first
(SSTF) a permutation of the requests; LOOK and C-LOOK a permutation of the
requests with any request equal to the initial position removed (it is
never revisited); SCAN the same possibly plus one boundary entry (0 when
sweeping low first, maxTrack when high first); and the direction-agnostic
C-SCAN the same plus one literal 0 at the wrap whenever a request lies
below the initial position (which duplicates a request at track 0 if
present). -/
theorem visit_sequences_cover_requests (c : AlgCfg) (hnd : c.requests.Nodup) :
    (fcfsExec c = c.initialPosition :: c.requests) ∧
    ((sstfExec c).head? = some c.initialPosition ∧
      List.Perm ((sstfExec c).drop 1) c.requests) ∧
    ((lookExec c).head? = some c.initialPosition ∧
      List.Perm ((lookExec c).drop 1)
        (c.requests.filter (fun r => r ≠ c.initialPosition))) ∧
    ((clookExec c).head? = some c.initialPosition ∧
      List.Perm ((clookExec c).drop 1)
        (c.requests.filter (fun r => r ≠ c.initialPosition))) ∧
    ((scanExec c).head? = some c.initialPosition ∧
      ∃ extra, (extra = [] ∨
          extra = [if c.direction = Direction.low then 0 else c.maxTrack]) ∧
        List.Perm ((scanExec c).drop 1)
          (extra ++ c.requests.filter (fun r => r ≠ c.initialPosition))) ∧
    ((cscanExec c).head? = some c.initialPosition ∧
      List.Perm ((cscanExec c).drop 1)
        (if c.requests.filter (fun r => r < c.initialPosition) = []
         then c.requests.filter (fun r => r ≠ c.initialPosition)
         else 0 :: c.requests.filter (fun r => r ≠ c.initialPosition))) :=
  ⟨rfl, ⟨rfl, sstf_tail_perm c⟩, ⟨look_head c, look_tail_perm c⟩,
   ⟨clook_head c, clook_tail_perm c⟩, ⟨scan_head c, scan_tail_perm c hnd⟩,
   ⟨cscan_head c, cscan_tail_perm c⟩⟩

/-- Witness for C1 on the textbook configuration. -/
theorem visit_sequences_cover_requests_witness :
    (mkAlgCfg 53 199 [98, 183, 37, 122, 14, 124, 65, 67] none).requests.Nodup ∧
    List.Perm
      ((sstfExec (mkAlgCfg 53 199 [98, 183, 37, 122, 14, 124, 65, 67] none)).drop 1)
      (mkAlgCfg 53 199 [98, 183, 37, 122, 14, 124, 65, 67] none).requests ∧
    (∃ extra, (extra = [] ∨
        extra = [if (mkAlgCfg 53 199 [98, 183, 37, 122, 14, 124, 65, 67]
          none).direction = Direction.low then 0
          else (mkAlgCfg 53 199 [98, 183, 37, 122, 14, 124, 65, 67] none).maxTrack]) ∧
      List.Perm
        ((scanExec (mkAlgCfg 53 199 [98, 183, 37, 122, 14, 124, 65, 67] none)).drop 1)
        (extra ++ (mkAlgCfg 53 199 [98, 183, 37, 122, 14, 124, 65, 67]
          none).requests.filter (fun r =>
            r ≠ (mkAlgCfg 53 199 [98, 183, 37, 122, 14, 124, 65, 67]
              none).initialPosition))) :=
  ⟨by decide,
   (visit_sequences_cover_requests _ (by decide)).2.1.2,
   (visit_sequences_cover_requests _ (by decide)).2.2.2.2.1.2⟩

/-- C3 (amended).  The direction-aware C-SCAN with hint toward-high first
services the requests strictly above the initial position in ascending
order (a request at the head position is serviced at the start), then, when
requests lie below, touches `maxTrack` (unless already there), wraps to the
literal 0 and services the remaining requests again in ascending order —
never reversing; concretely with head 53, maxTrack 199 and requests
`{98,183,37,122,14,124,65,67}` the sequence is
`[53,65,67,98,122,124,183,199,0,14,37]`, so after the wrap the service
order is 14 then 37.  (The direction-agnostic revision at the cited lines
ignores the hint and services the wrapped requests in descending order —
see the counterexample.) -/
theorem cscan2_high_ascending_wrap (h M : ℤ) (R : List ℤ) (hnd : R.Nodup) :
    (∃ mid,
      cscan2Exec (AlgCfg.mk h M R Direction.high) =
        h :: (sortAsc (R.filter (fun r => h < r)) ++ mid ++ sortAsc (R.filter (fun r => r < h))) ∧
      ((R.filter (fun r => r < h) = [] ∧ mid = []) ∨
       (R.filter (fun r => r < h) ≠ [] ∧ (mid = [M, 0] ∨ mid = [0]))) ∧
      (sortAsc (R.filter (fun r => h < r))).Sorted (fun a b => a ≤ b) ∧
      (sortAsc (R.filter (fun r => r < h))).Sorted (fun a b => a ≤ b) ∧
      List.Perm (sortAsc (R.filter (fun r => h < r))) (R.filter (fun r => h < r)) ∧
      List.Perm (sortAsc (R.filter (fun r => r < h))) (R.filter (fun r => r < h))) ∧
    cscan2Exec (mkAlgCfg 53 199 [98, 183, 37, 122, 14, 124, 65, 67]
        (some Direction.high)) =
      [53, 65, 67, 98, 122, 124, 183, 199, 0, 14, 37] := by
  constructor
  · have hform : cscan2Exec (AlgCfg.mk h M R Direction.high) =
        if sortAsc (R.filter (fun r => r < h)) ≠ [] then
          (if jsLast (h :: sortAsc (R.filter (fun r => h < r))) ≠ M
           then (h :: sortAsc (R.filter (fun r => h < r))) ++ [M]
           else h :: sortAsc (R.filter (fun r => h < r))) ++ 0 :: sortAsc (R.filter (fun r => r < h))
        else h :: sortAsc (R.filter (fun r => h < r)) := by
      show (if ((sortDesc (R.filter (fun r => r < h))).reverse) ≠ [] then
          (if jsLast (h :: (if (sortAsc (R.filter (fun r => h ≤ r))).head? = some h then (sortAsc (R.filter (fun r => h ≤ r))).tail else sortAsc (R.filter (fun r => h ≤ r)))) ≠ M
           then (h :: (if (sortAsc (R.filter (fun r => h ≤ r))).head? = some h then (sortAsc (R.filter (fun r => h ≤ r))).tail else sortAsc (R.filter (fun r => h ≤ r)))) ++ [M]
           else h :: (if (sortAsc (R.filter (fun r => h ≤ r))).head? = some h then (sortAsc (R.filter (fun r => h ≤ r))).tail else sortAsc (R.filter (fun r => h ≤ r)))) ++ 0 :: ((sortDesc (R.filter (fun r => r < h))).reverse)
        else h :: (if (sortAsc (R.filter (fun r => h ≤ r))).head? = some h then (sortAsc (R.filter (fun r => h ≤ r))).tail else sortAsc (R.filter (fun r => h ≤ r)))) = _
      rw [shiftHead_sortAsc_ge h R hnd, reverse_sortDesc]
    by_cases hne : (sortAsc (R.filter (fun r => r < h))) ≠ []
    · have hf : R.filter (fun r => r < h) ≠ [] := by
        intro hnil
        exact hne (by rw [hnil]; rfl)
      by_cases hj : jsLast (h :: sortAsc (R.filter (fun r => h < r))) ≠ M
      · refine ⟨[M, 0], ?_, Or.inr ⟨hf, Or.inl rfl⟩,
          sortAsc_sorted _, sortAsc_sorted _, sortAsc_perm _, sortAsc_perm _⟩
        rw [hform, if_pos hne, if_pos hj]
        simp [List.append_assoc]
      · refine ⟨[0], ?_, Or.inr ⟨hf, Or.inr rfl⟩,
          sortAsc_sorted _, sortAsc_sorted _, sortAsc_perm _, sortAsc_perm _⟩
        rw [hform, if_pos hne, if_neg hj]
        simp [List.append_assoc]
    · have hsnil : (sortAsc (R.filter (fun r => r < h))) = [] := not_not.mp hne
      have hf : R.filter (fun r => r < h) = [] := sortAsc_eq_nil_iff.mp hsnil
      refine ⟨[], ?_, Or.inl ⟨hf, rfl⟩,
        sortAsc_sorted _, sortAsc_sorted _, sortAsc_perm _, sortAsc_perm _⟩
      rw [hform, if_neg hne, hsnil]
      simp
  · decide

/-- Witness for C3 at the textbook configuration. -/
theorem cscan2_high_ascending_wrap_witness :
    ([98, 183, 37, 122, 14, 124, 65, 67] : List ℤ).Nodup ∧
    cscan2Exec (mkAlgCfg 53 199 [98, 183, 37, 122, 14, 124, 65, 67]
        (some Direction.high)) =
      [53, 65, 67, 98, 122, 124, 183, 199, 0, 14, 37] :=
  ⟨by decide,
   (cscan2_high_ascending_wrap 53 199 [98, 183, 37, 122, 14, 124, 65, 67]
     (by decide)).2⟩

/-- C2.  An empty request set, an initial position outside `[0, maxTrack]`,
or `maxTrack` below 10 make `validateParameters` fail, so the run-creation
entry point returns no timeline at all; an out-of-range request (which
survives parsing only if the state is set directly) makes the `AlgorithmBase`
constructor throw inside `generateSequence` before any policy executes, so
the installed timeline is the single pristine initial record — identical for
every policy, never a partial or garbage timeline. -/
theorem validation_blocks_run_creation :
    (∀ (init M : ℤ) (rq : List ℤ) (d : Direction) (e : AlgCfg → List ℤ),
      (rq = [] ∨ init < 0 ∨ M < init ∨ M < 10) →
      generateSimulation init M rq d e = none) ∧
    (∀ (init M : ℤ) (rq : List ℤ) (d : Direction) (e f : AlgCfg → List ℤ),
      (rq = [] ∨ init < 0 ∨ M < init ∨ ∃ r ∈ rq, r < 0 ∨ M < r) →
      generateSequence1 init M rq d e = [createInitialStep init rq] ∧
      generateSequence1 init M rq d e = generateSequence1 init M rq d f) ∧
    (∀ (init M : ℤ) (rq : List ℤ) (d : Direction) (e : AlgCfg → List ℤ),
      (∃ r ∈ rq, r < 0 ∨ M < r) →
      generateSimulation init M rq d e = none ∨
      generateSimulation init M rq d e = some [createInitialStep init rq]) := by
  have hseq : ∀ (init M : ℤ) (rq : List ℤ) (d : Direction) (e : AlgCfg → List ℤ),
      (rq = [] ∨ init < 0 ∨ M < init ∨ ∃ r ∈ rq, r < 0 ∨ M < r) →
      generateSequence1 init M rq d e = [createInitialStep init rq] := by
    intro init M rq d e hbad
    obtain ⟨err, herr⟩ := validateInput_error (AlgCfg.mk init M rq d) hbad
    unfold generateSequence1
    rw [herr]
  refine ⟨?_, ?_, ?_⟩
  · intro init M rq d e hbad
    have hcond : ¬ (validateParameters1 init M rq = []) := by
      rw [validateParameters1_eq_nil_iff]
      intro hnil
      rcases hbad with h | h | h | h
      · exact hnil.1 h
      · exact hnil.2.1 (Or.inl h)
      · exact hnil.2.1 (Or.inr h)
      · exact hnil.2.2 h
    simp [generateSimulation, hcond]
  · intro init M rq d e f hbad
    rw [hseq init M rq d e hbad, hseq init M rq d f hbad]
    exact ⟨rfl, rfl⟩
  · intro init M rq d e hbad
    by_cases hval : validateParameters1 init M rq = []
    · right
      simp only [generateSimulation, if_pos hval]
      rw [hseq init M rq d e (Or.inr (Or.inr (Or.inr hbad)))]
    · left
      simp [generateSimulation, hval]

/-- Witness for C2: the empty queue blocks run creation at the pipeline, and
the out-of-range request 500 (maxTrack 199) makes `generateSequence` install
the single initial record. -/
theorem validation_blocks_run_creation_witness :
    generateSimulation 53 199 [] Direction.low fcfsExec = none ∧
    generateSequence1 53 199 [500] Direction.low fcfsExec =
      [createInitialStep 53 [500]] :=
  ⟨validation_blocks_run_creation.1 53 199 [] Direction.low fcfsExec (Or.inl rfl),
   (validation_blocks_run_creation.2.1 53 199 [500] Direction.low fcfsExec sstfExec
     (Or.inr (Or.inr (Or.inr ⟨500, by decide, by decide⟩)))).1⟩

/-- C9.  Jumping to step `i` twice leaves exactly the state (hence the
statistics) of jumping once; and jumping to 0 then stepping forward
`records - 1` times installs the statistics of the timeline's final
record. -/
theorem replay_idempotent_and_final (s : SimState) (i : ℤ) :
    jumpToStep i (jumpToStep i s) = jumpToStep i s ∧
    (s.allSteps ≠ [] →
      ∃ last, s.allSteps.getLast? = some last ∧
        ((nextStepFn)^[s.allSteps.length - 1] (jumpToStep 0 s)).currentHeadPosition =
          last.headPosition ∧
        ((nextStepFn)^[s.allSteps.length - 1] (jumpToStep 0 s)).totalHeadMovement =
          last.totalHeadMovement ∧
        ((nextStepFn)^[s.allSteps.length - 1] (jumpToStep 0 s)).pendingRequests =
          last.pendingQueue ∧
        ((nextStepFn)^[s.allSteps.length - 1] (jumpToStep 0 s)).servicedRequests =
          last.servicedQueue ∧
        ((nextStepFn)^[s.allSteps.length - 1] (jumpToStep 0 s)).nextTarget =
          last.nextTarget ∧
        ((nextStepFn)^[s.allSteps.length - 1] (jumpToStep 0 s)).seeksCount =
          (if 0 < last.step then last.step else 0) ∧
        ((nextStepFn)^[s.allSteps.length - 1] (jumpToStep 0 s)).averageSeekTime =
          (if 0 < last.step then (last.totalHeadMovement : ℚ) / (last.step : ℚ) else 0)) := by
  refine ⟨jumpToStep_idem i s, ?_⟩
  intro hne
  have hlen : 1 ≤ s.allSteps.length := List.length_pos.mpr hne
  have hit := iterate_nextStep_eq_jump s hne (s.allSteps.length - 1)
    (by omega)
  rw [hit]
  obtain ⟨r, hget, hstats⟩ := jumpToStep_stats s hne ((s.allSteps.length - 1 : ℕ) : ℤ)
    (by positivity) (by omega)
  refine ⟨r, ?_, hstats⟩
  rw [List.getLast?_eq_getElem?, ← List.get?_eq_getElem?]
  rw [show ((s.allSteps.length - 1 : ℕ) : ℤ).toNat = s.allSteps.length - 1 by omega] at hget
  exact hget

/-- Witness for C9 on the concrete two-record state. -/
theorem replay_idempotent_and_final_witness :
    sampleState.allSteps ≠ [] ∧
    (∃ last, sampleState.allSteps.getLast? = some last ∧
      ((nextStepFn)^[sampleState.allSteps.length - 1] (jumpToStep 0 sampleState)).currentHeadPosition =
        last.headPosition ∧
      ((nextStepFn)^[sampleState.allSteps.length - 1] (jumpToStep 0 sampleState)).totalHeadMovement =
        last.totalHeadMovement ∧
      ((nextStepFn)^[sampleState.allSteps.length - 1] (jumpToStep 0 sampleState)).pendingRequests =
        last.pendingQueue ∧
      ((nextStepFn)^[sampleState.allSteps.length - 1] (jumpToStep 0 sampleState)).servicedRequests =
        last.servicedQueue ∧
      ((nextStepFn)^[sampleState.allSteps.length - 1] (jumpToStep 0 sampleState)).nextTarget =
        last.nextTarget ∧
      ((nextStepFn)^[sampleState.allSteps.length - 1] (jumpToStep 0 sampleState)).seeksCount =
        (if 0 < last.step then last.step else 0) ∧
      ((nextStepFn)^[sampleState.allSteps.length - 1] (jumpToStep 0 sampleState)).averageSeekTime =
        (if 0 < last.step then (last.totalHeadMovement : ℚ) / (last.step : ℚ) else 0)) :=
  ⟨by decide, (replay_idempotent_and_final sampleState 0).2 (by decide)⟩

/-- C10.  `jumpToStep` clamps any integer argument — negative or past the
end — into `[0, allSteps.length - 1]`, and after any sequence of jump, next
and previous calls started from a well-formed state the index stays a valid
position into the unchanged timeline, so `getCurrentStep` reads the record
at the current index and never accesses the array out of bounds. -/
theorem jumpToStep_clamps_and_access_safe :
    (∀ (i : ℤ) (s : SimState), s.allSteps ≠ [] →
      0 ≤ (jumpToStep i s).currentStepIndex ∧
      (jumpToStep i s).currentStepIndex ≤ (s.allSteps.length : ℤ) - 1) ∧
    (∀ (acts : List ReplayAct) (s : SimState),
      s.allSteps ≠ [] → 0 ≤ s.currentStepIndex →
      s.currentStepIndex ≤ (s.allSteps.length : ℤ) - 1 →
      (applyActs acts s).allSteps = s.allSteps ∧
      0 ≤ (applyActs acts s).currentStepIndex ∧
      (applyActs acts s).currentStepIndex ≤ ((applyActs acts s).allSteps.length : ℤ) - 1 ∧
      ∃ r, getCurrentStep (applyActs acts s) = some r ∧
        (applyActs acts s).allSteps.get? (applyActs acts s).currentStepIndex.toNat =
          some r) := by
  constructor
  · intro i s hne
    have hlen := List.length_pos.mpr hne
    rw [jumpToStep_eq_def, updateStatistics_currentStepIndex]
    constructor
    · exact le_max_left 0 _
    · show max 0 (min i ((s.allSteps.length : ℤ) - 1)) ≤ (s.allSteps.length : ℤ) - 1
      omega
  · intro acts s hne h0 h1
    obtain ⟨hAS, h0', h1'⟩ := applyActs_preserves acts s hne h0 h1
    have hne' : (applyActs acts s).allSteps ≠ [] := by rw [hAS]; exact hne
    refine ⟨hAS, h0', by rw [hAS]; exact h1', ?_⟩
    obtain ⟨r, hr, hget⟩ := getCurrentStep_some _ hne' h0'
    have hmin : min (applyActs acts s).currentStepIndex
        (((applyActs acts s).allSteps.length : ℤ) - 1) =
        (applyActs acts s).currentStepIndex := by
      apply min_eq_left
      rw [hAS]
      exact h1'
    rw [hmin] at hget
    exact ⟨r, hr, hget⟩

/-- Witness for C10: jumping to 5 (past the end) and to -3 on the concrete
two-record state keeps the index valid. -/
theorem jumpToStep_clamps_and_access_safe_witness :
    (0 ≤ (jumpToStep 5 sampleState).currentStepIndex ∧
      (jumpToStep 5 sampleState).currentStepIndex ≤
        (sampleState.allSteps.length : ℤ) - 1) ∧
    (applyActs [ReplayAct.jump (-3), ReplayAct.next] sampleState).allSteps =
      sampleState.allSteps ∧
    0 ≤ (applyActs [ReplayAct.jump (-3), ReplayAct.next] sampleState).currentStepIndex ∧
    (applyActs [ReplayAct.jump (-3), ReplayAct.next] sampleState).currentStepIndex ≤
      ((applyActs [ReplayAct.jump (-3), ReplayAct.next] sampleState).allSteps.length : ℤ) - 1 ∧
    ∃ r, getCurrentStep (applyActs [ReplayAct.jump (-3), ReplayAct.next] sampleState) = some r ∧
      (applyActs [ReplayAct.jump (-3), ReplayAct.next] sampleState).allSteps.get?
        (applyActs [ReplayAct.jump (-3), ReplayAct.next] sampleState).currentStepIndex.toNat =
        some r :=
  ⟨jumpToStep_clamps_and_access_safe.1 5 sampleState (by decide),
   jumpToStep_clamps_and_access_safe.2 [ReplayAct.jump (-3), ReplayAct.next] sampleState
     (by decide) (by decide) (by decide)⟩

/-- Counterexample to C1 as stated: for the direction-agnostic `CSCAN.execute`
with head 53, maxTrack 199 and the single request 37, the returned sequence is
`[53, 0, 37]` — the entry 0 after the first element is not a request. -/
theorem cscan_emits_nonrequest_boundary :
    (0 : ℤ) ∈ (cscanExec (mkAlgCfg 53 199 [37] none)).drop 1 ∧
    (0 : ℤ) ∉ (mkAlgCfg 53 199 [37] none).requests := by
  constructor
  · decide
  · decide

/-- Counterexample to C3 as stated: the cited `CSCAN.execute` (direction-
agnostic revision) run with the direction hint toward-high on head 53 and
requests `{98,183,37,122,14,124,65,67}` wraps to 0 and then services 37
before 14 (descending), not 14 then 37. -/
theorem cscan_after_wrap_descending :
    cscanExec (mkAlgCfg 53 199 [98, 183, 37, 122, 14, 124, 65, 67] (some Direction.high)) =
      [53, 65, 67, 98, 122, 124, 183, 0, 37, 14] ∧
    (cscanExec (mkAlgCfg 53 199 [98, 183, 37, 122, 14, 124, 65, 67]
      (some Direction.high))).drop 8 = [37, 14] := by
  constructor
  · decide
  · decide

/-- C5 (amended).  In the timeline produced by the later revision of
`convertSequenceToSteps`: every record `i ≥ 1` that is not the last carries
`nextTarget` equal to the head position of record `i+1`; the last record
carries `nextTarget = null` (also in the single-record case); record 0
carries `nextTarget = null` as produced (it is patched to record 1's head
position afterwards by `generateSequence`, not here). -/
theorem convertSequenceToSteps2_nextTarget_chain (init : ℤ) (rq seq : List ℤ) :
    ((convertSequenceToSteps2 init rq seq).get? 0).map StepRecord.nextTarget = some none ∧
    (∀ i r r', 1 ≤ i →
      (convertSequenceToSteps2 init rq seq).get? i = some r →
      (convertSequenceToSteps2 init rq seq).get? (i + 1) = some r' →
      r.nextTarget = some r'.headPosition) ∧
    ((convertSequenceToSteps2 init rq seq).getLast?).map StepRecord.nextTarget =
      some none := by
  match seq with
  | [] =>
    refine ⟨rfl, ?_, rfl⟩
    intro i r r' hi hr hr'
    rw [convertSequenceToSteps2] at hr
    rcases Nat.exists_eq_add_of_le hi with ⟨j, hj⟩
    rw [Nat.add_comm] at hj
    subst hj
    simp at hr
  | s0 :: rest =>
    have hgo : convertSequenceToSteps2 init rq (s0 :: rest) =
        _ :: convertGo2 s0 rest 1 0 rq [] := rfl
    refine ⟨rfl, ?_, ?_⟩
    · intro i r r' hi hr hr'
      rcases Nat.exists_eq_add_of_le hi with ⟨j, hj⟩
      subst hj
      rw [hgo] at hr hr'
      simp only [Nat.add_comm 1 j, List.get?_cons_succ] at hr hr'
      have hnext := convertGo2_get_next rest s0 1 0 rq [] j
      have hhead := convertGo2_get_head rest s0 1 0 rq [] (j + 1)
      rw [hr] at hnext
      rw [hr'] at hhead
      have hjlt : rest.get? j ≠ none := by
        intro hn
        rw [hn] at hnext
        simp at hnext
      rcases Option.ne_none_iff_exists.mp hjlt with ⟨v, hv⟩
      rw [← hv] at hnext
      simp only [Option.map_some'] at hnext hhead
      rw [Option.some.inj hnext, ← hhead]
    · rw [hgo]
      cases rest with
      | nil => rfl
      | cons r1 rest' =>
        have hne2 : convertGo2 s0 (r1 :: rest') 1 0 rq [] ≠ [] := by
          have := convertGo2_length (r1 :: rest') s0 1 0 rq []
          intro hn
          rw [hn] at this
          simp at this
        rw [getLast?_cons_ne_nil _ hne2]
        exact convertGo2_getLast_next (r1 :: rest') s0 1 0 rq [] (by simp)

/-- Witness for C5 at the two-entry sequence `[53, 98]`: record 1 is last and
carries `nextTarget = null`, record 0 carries `null`. -/
theorem convertSequenceToSteps2_nextTarget_chain_witness :
    ((convertSequenceToSteps2 53 [98] [53, 98]).get? 0).map StepRecord.nextTarget = some none ∧
    ((convertSequenceToSteps2 53 [98] [53, 98]).getLast?).map StepRecord.nextTarget =
      some none :=
  ⟨(convertSequenceToSteps2_nextTarget_chain 53 [98] [53, 98]).1,
   (convertSequenceToSteps2_nextTarget_chain 53 [98] [53, 98]).2.2⟩

/-- Counterexample to C5 as stated: in the later revision, the initial record
of `convertSequenceToSteps` carries `nextTarget = null` even when a second
record exists (head 98); in the earlier revision the initial record's
`nextTarget` is the first pending request (98), not the head position of
record 1 (65). -/
theorem convertSequenceToSteps_record0_nextTarget :
    ((convertSequenceToSteps2 53 [98] [53, 98]).get? 0).map StepRecord.nextTarget =
      some none ∧
    ((convertSequenceToSteps2 53 [98] [53, 98]).get? 1).map StepRecord.headPosition =
      some 98 ∧
    ((convertSequenceToSteps1 53 [98, 65] [53, 65, 98]).get? 0).map StepRecord.nextTarget =
      some (some 98) ∧
    ((convertSequenceToSteps1 53 [98, 65] [53, 65, 98]).get? 1).map StepRecord.headPosition =
      some 65 := by
  refine ⟨by decide, by decide, by decide, by decide⟩

/-- C7 (amended).  The later revision of `parseRequestQueue` — the one that
deduplicates via `Set` — produces, for every raw comma-separated input, a
queue of distinct integers inside `[0, maxTrack]`; malformed and out-of-range
tokens are dropped.  (The earlier revision keeps duplicates; see the
counterexample.) -/
theorem parseRequestQueue2_distinct_in_range (maxTrackNumber : ℤ) (queueString : List Char) :
    (parseRequestQueue2 maxTrackNumber queueString).Nodup ∧
    ∀ r ∈ parseRequestQueue2 maxTrackNumber queueString,
      0 ≤ r ∧ r ≤ maxTrackNumber := by
  constructor
  · exact (dedupFirst_go_nodup _ []).1
  · intro r hr
    have hr1 : r ∈ parseRequestQueue1 maxTrackNumber queueString :=
      dedupFirst_go_subset _ [] r hr
    have := List.of_mem_filter hr1
    simpa using this

/-- Counterexample to C7 as stated: the earlier revision of
`parseRequestQueue` does not deduplicate; on input `"5,5"` the produced
queue `[5, 5]` holds a duplicate. -/
theorem parseRequestQueue1_keeps_duplicates :
    parseRequestQueue1 199 ['5', ',', '5'] = [5, 5] ∧
    ¬ (parseRequestQueue1 199 ['5', ',', '5']).Nodup := by
  constructor
  · decide
  · decide

end Claims
